import Mathlib

/-!
Formal model of the sorting-trainer core: the step-plan generators and
move-validation helpers of `src/modules/algorithms.js` and the game-session
state machine of `src/modules/game-engine.js`, together with theorems about
them.

Modelling conventions:
* JS number arrays become `List Int`; array reads `a[i]` become `idx a i`
  (`getD` with default `0`; every read performed by the modelled code is
  in bounds, so the default is never observed).
* The destructuring swap `[a[i], a[j]] = [a[j], a[i]]` becomes `listSwap`.
* A plan step keeps the fields the engine actually consumes (`type`,
  `indices`, `values`).  The `message` string and the per-algorithm
  metadata (`pass`/`position`, `sortedPosition`/`minIndex`,
  `insertingElement`/`currentPosition`) are presentational only — the
  engine never reads them — and are omitted.
* `for`/`while` loops become structural recursion on an explicit iteration
  count computed exactly as the loop bounds do.
-/

namespace SortGame

/-- Array read `a[i]` (all modelled reads are in bounds). -/
def idx (a : List Int) (i : Nat) : Int := a.getD i 0

/-- The JS destructuring swap `[a[i], a[j]] = [a[j], a[i]]`: the right-hand
pair is evaluated first, then the two writes happen. -/
def listSwap (a : List Int) (i j : Nat) : List Int :=
  (a.set i (idx a j)).set j (idx a i)

/-- `STEP_TYPES` of algorithms.js; only `swap` is ever produced. -/
inductive StepType where
  | swap
  | compare
  | noAction
deriving DecidableEq

/-- One required action of a plan (algorithms.js step objects, with the
presentational `message`/metadata fields omitted). -/
structure Step where
  type : StepType
  indices : Nat × Nat
  values : Int × Int
deriving DecidableEq

/-- Applying a plan's swaps, in order, to a sequence. -/
def applySteps (steps : List Step) (a : List Int) : List Int :=
  steps.foldl (fun acc s => listSwap acc s.indices.1 s.indices.2) a

/-- A step list is a coherent trace from `a`: each step's indices are
distinct in-bounds positions and its recorded values are the values found
at those positions when the step executes. -/
def Coherent (a : List Int) : List Step → Prop
  | [] => True
  | s :: ss =>
      s.indices.1 < a.length ∧ s.indices.2 < a.length ∧
      s.indices.1 ≠ s.indices.2 ∧
      s.values.1 = idx a s.indices.1 ∧ s.values.2 = idx a s.indices.2 ∧
      Coherent (listSwap a s.indices.1 s.indices.2) ss

/-- `steps` is a coherent trace from `a` whose replay ends in `out`. -/
def TraceOK (a : List Int) (steps : List Step) (out : List Int) : Prop :=
  Coherent a steps ∧ applySteps steps a = out

/-- The `isSorted` check of game-engine.js:
`every((val, idx) => idx === 0 || val >= arr[idx-1])`. -/
def isSortedList : List Int → Bool
  | [] => true
  | [_] => true
  | x :: y :: t => decide (x ≤ y) && isSortedList (y :: t)

/-- Adjacent-pairs formulation of "non-decreasing". -/
def AdjOK (a : List Int) : Prop :=
  ∀ t, t + 1 < a.length → idx a t ≤ idx a (t + 1)

/-- All-pairs formulation of "non-decreasing". -/
def PairOK (a : List Int) : Prop :=
  ∀ p q, p < q → q < a.length → idx a p ≤ idx a q

/-- Inner loop of `generateBubbleSortSteps` (algorithms.js lines 66-82):
compare positions `(j, j+1)`, swap-and-record when out of order; `fuel`
iterations remain.  Returns the array, the recorded steps of this pass in
order, and the `swapped` flag. -/
def bubbleInner (a : List Int) (j : Nat) : Nat → List Int × List Step × Bool
  | 0 => (a, [], false)
  | fuel + 1 =>
      if idx a (j + 1) < idx a j then
        let s : Step := ⟨StepType.swap, (j, j + 1), (idx a j, idx a (j + 1))⟩
        let r := bubbleInner (listSwap a j (j + 1)) (j + 1) fuel
        (r.1, s :: r.2.1, true)
      else
        bubbleInner a (j + 1) fuel

/-- Outer loop of `generateBubbleSortSteps` (lines 63-86): pass `i` runs the
inner loop over `j < n - i - 1` and the whole loop breaks early when a pass
performs no swap. -/
def bubbleOuter (n : Nat) (a : List Int) (i : Nat) : Nat → List Int × List Step
  | 0 => (a, [])
  | fuel + 1 =>
      let p := bubbleInner a 0 (n - i - 1)
      if p.2.2 then
        let r := bubbleOuter n p.1 (i + 1) fuel
        (r.1, p.2.1 ++ r.2)
      else
        (p.1, p.2.1)

/-- `generateBubbleSortSteps` of algorithms.js (lines 58-89). -/
def generateBubbleSortSteps (arr : List Int) : List Step :=
  (bubbleOuter arr.length arr 0 (arr.length - 1)).2

/-- Minimum search of `generateSelectionSortSteps` (lines 103-108): scan
`fuel` further positions starting at `j`, keeping the first-seen minimum. -/
def findMinIdx (a : List Int) (minIdx j : Nat) : Nat → Nat
  | 0 => minIdx
  | fuel + 1 =>
      if idx a j < idx a minIdx then findMinIdx a j (j + 1) fuel
      else findMinIdx a minIdx (j + 1) fuel

/-- Outer loop of `generateSelectionSortSteps` (lines 101-124). -/
def selOuter (n : Nat) (a : List Int) (i : Nat) : Nat → List Int × List Step
  | 0 => (a, [])
  | fuel + 1 =>
      let m := findMinIdx a i (i + 1) (n - i - 1)
      if m = i then
        selOuter n a (i + 1) fuel
      else
        let s : Step := ⟨StepType.swap, (i, m), (idx a i, idx a m)⟩
        let r := selOuter n (listSwap a i m) (i + 1) fuel
        (r.1, s :: r.2)

/-- `generateSelectionSortSteps` of algorithms.js (lines 96-127). -/
def generateSelectionSortSteps (arr : List Int) : List Step :=
  (selOuter arr.length arr 0 (arr.length - 1)).2

/-- Inner `while` of `generateInsertionSortSteps` (lines 143-156): the
element at the current position walks left while its left neighbour is
strictly greater.  The argument is the current position `j`. -/
def insMove (a : List Int) : Nat → List Int × List Step
  | 0 => (a, [])
  | j + 1 =>
      if idx a (j + 1) < idx a j then
        let s : Step := ⟨StepType.swap, (j, j + 1), (idx a j, idx a (j + 1))⟩
        let r := insMove (listSwap a j (j + 1)) j
        (r.1, s :: r.2)
      else
        (a, [])

/-- Outer loop of `generateInsertionSortSteps` (lines 139-157): `i` starts
at 1. -/
def insOuter (a : List Int) (i : Nat) : Nat → List Int × List Step
  | 0 => (a, [])
  | fuel + 1 =>
      let p := insMove a i
      let r := insOuter p.1 (i + 1) fuel
      (r.1, p.2 ++ r.2)

/-- `generateInsertionSortSteps` of algorithms.js (lines 134-160). -/
def generateInsertionSortSteps (arr : List Int) : List Step :=
  (insOuter arr 1 (arr.length - 1)).2

/-- The three supported algorithm identifiers (keys of `ALGORITHMS`). -/
inductive AlgKey where
  | bubble
  | selection
  | insertion
deriving DecidableEq

/-- Lookup `ALGORITHMS[key]` (the descriptor's display name, description
and rule strings are presentational and omitted; the engine only ever uses
the `key`). -/
def lookupAlgorithm (s : String) : Option AlgKey :=
  if s = "bubble" then some AlgKey.bubble
  else if s = "selection" then some AlgKey.selection
  else if s = "insertion" then some AlgKey.insertion
  else none

/-- Dispatch of `generateStepsForAlgorithm` on a recognised key. -/
def generateSteps : AlgKey → List Int → List Step
  | AlgKey.bubble, a => generateBubbleSortSteps a
  | AlgKey.selection, a => generateSelectionSortSteps a
  | AlgKey.insertion, a => generateInsertionSortSteps a

/-- `generateStepsForAlgorithm` of algorithms.js (lines 168-179); the
default branch throws `Algoritm necunoscut`. -/
def generateStepsForAlgorithm (algorithmKey : String) (arr : List Int) :
    Except String (List Step) :=
  match lookupAlgorithm algorithmKey with
  | some k => Except.ok (generateSteps k arr)
  | none => Except.error ("Algoritm necunoscut: " ++ algorithmKey)

/-- `validateMove` of algorithms.js (lines 188-196). -/
def validateMove (expectedStep : Option Step) (index1 index2 : Int) : Bool :=
  match expectedStep with
  | none => false
  | some st =>
      decide ((index1 = (st.indices.1 : Int) ∧ index2 = (st.indices.2 : Int)) ∨
        (index1 = (st.indices.2 : Int) ∧ index2 = (st.indices.1 : Int)))

/-- `getErrorMessage` of algorithms.js (lines 206-230).  The key is an
`Option` because the JS switch also accepts an undefined key (default
branch). -/
def getErrorMessage (algorithmKey : Option AlgKey) (expectedStep : Option Step)
    (index1 index2 : Int) : String :=
  match expectedStep with
  | none => "Nu mai sunt mutări necesare! Verifică dacă array-ul este sortat."
  | some st =>
      let expIdx1 := st.indices.1
      let expIdx2 := st.indices.2
      let expVal1 := st.values.1
      let expVal2 := st.values.2
      match algorithmKey with
      | some AlgKey.bubble =>
          if (index1 - index2).natAbs ≠ 1 then
            "Metoda Bulelor: Poți schimba doar elemente ADIACENTE! Trebuie să schimbi pozițiile "
              ++ toString expIdx1 ++ " și " ++ toString expIdx2 ++ "."
          else
            "Mutare greșită! Conform Metodei Bulelor, trebuie să compari elementele de la pozițiile "
              ++ toString expIdx1 ++ " și " ++ toString expIdx2
              ++ " (valorile " ++ toString expVal1 ++ " și " ++ toString expVal2 ++ ")."
      | some AlgKey.selection =>
          "Mutare greșită! Conform Metodei Selecției, trebuie să muți minimul ("
            ++ toString expVal2 ++ ") de la poziția " ++ toString expIdx2
            ++ " la poziția " ++ toString expIdx1 ++ "."
      | some AlgKey.insertion =>
          "Mutare greșită! Conform Metodei Inserției, trebuie să muți elementul "
            ++ toString expVal2 ++ " de la poziția " ++ toString expIdx2
            ++ " spre stânga, schimbându-l cu " ++ toString expVal1 ++ "."
      | none =>
          "Mutare greșită! Trebuie să schimbi elementele de la pozițiile "
            ++ toString expIdx1 ++ " și " ++ toString expIdx2 ++ "."

/-- `getNextMoveHint` of algorithms.js (lines 238-259). -/
def getNextMoveHint (algorithmKey : Option AlgKey) (nextStep : Option Step) :
    String :=
  match nextStep with
  | none => "Array-ul este sortat! Apasă \"Verifică Soluția\"."
  | some st =>
      let idx1 := st.indices.1
      let idx2 := st.indices.2
      let val1 := st.values.1
      let val2 := st.values.2
      match algorithmKey with
      | some AlgKey.bubble =>
          "Compară pozițiile " ++ toString idx1 ++ " și " ++ toString idx2
            ++ ": schimbă " ++ toString val1 ++ " cu " ++ toString val2
      | some AlgKey.selection =>
          "Găsește minimul (" ++ toString val2 ++ ") și mută-l la poziția "
            ++ toString idx1
      | some AlgKey.insertion =>
          "Inserează " ++ toString val2 ++ ": schimbă cu " ++ toString val1
            ++ " (poziția " ++ toString idx1 ++ ")"
      | none =>
          "Schimbă pozițiile " ++ toString idx1 ++ " și " ++ toString idx2

/-- `GAME_STATES` of game-engine.js. -/
inductive GameState where
  | idle
  | playing
  | completed
  | paused
deriving DecidableEq

/-- The move counters of `this.stats`.  `startTime`/`endTime` are wall-clock
values outside the model (no claim concerns them). -/
structure Stats where
  totalMoves : Nat
  correctMoves : Nat
  incorrectMoves : Nat
deriving DecidableEq

/-- The mutable fields of a `GameEngine` instance (game-engine.js lines
40-55).  `currentAlgorithm` stores the descriptor's key. -/
structure Engine where
  state : GameState
  numbers : List Int
  originalNumbers : List Int
  currentAlgorithm : Option AlgKey
  stepQueue : List Step
  currentStepIndex : Nat
  selectedIndex : Option Int
  stats : Stats
deriving DecidableEq

/-- `reset()` of game-engine.js. -/
def resetEngine : Engine :=
  ⟨GameState.idle, [], [], none, [], 0, none, ⟨0, 0, 0⟩⟩

/-- Result of `getProgress()` (game-engine.js lines 306-317).
`percentage = Math.round(100 * completed / total)`, written as the exact
integer formula `(200c + t) / (2t)`. -/
structure Progress where
  completed : Nat
  total : Nat
  percentage : Nat
  remaining : Nat
deriving DecidableEq

def getProgress (e : Engine) : Progress :=
  let total := e.stepQueue.length
  let c := e.currentStepIndex
  ⟨c, total, if 0 < total then (200 * c + total) / (2 * total) else 0, total - c⟩

/-- The structured record returned by `attemptSwap` (fields absent from a
given JS return object are `none`). -/
structure SwapResult where
  success : Bool
  correct : Bool
  completed : Option Bool
  indices : Option (Int × Int)
  expectedIndices : Option (Nat × Nat)
  message : String
  nextHint : Option String
  hint : Option String
  progress : Option Progress
deriving DecidableEq

/-- Record returned by `startNewGame` (game-engine.js lines 131-136). -/
structure StartResult where
  numbers : List Int
  algorithm : AlgKey
  totalSteps : Nat
  firstHint : String
deriving DecidableEq

/-- The shapes of objects returned by `selectElement`. -/
inductive SelectResult where
  | notActive (message : String)
  | invalidIndex (message : String)
  | selected (selectedIndex : Int) (message : String)
  | deselected (message : String)
  | swapAttempt (r : SwapResult)
deriving DecidableEq

/-- `isSorted()` of game-engine.js (lines 279-283). -/
def engineIsSorted (e : Engine) : Bool := isSortedList e.numbers

/-- `completeGame()` of game-engine.js (lines 270-273); `endTime` is
wall-clock and outside the model. -/
def completeGame (e : Engine) : Engine := { e with state := GameState.completed }

/-- The method `getNextMoveHint()` of game-engine.js (lines 289-292). -/
def engineNextHint (e : Engine) : String :=
  getNextMoveHint e.currentAlgorithm e.stepQueue[e.currentStepIndex]?

/-- The in-place swap of `attemptSwap` on the live sequence.  Its indices
are JS numbers; every swap the engine actually performs has been validated
against the plan, so both are in-bounds naturals. -/
def swapIntIdx (a : List Int) (i j : Int) : List Int :=
  listSwap a i.toNat j.toNat

/-- `attemptSwap` of game-engine.js (lines 188-265). -/
def attemptSwap (e : Engine) (index1 index2 : Int) : Engine × SwapResult :=
  if e.state ≠ GameState.playing then
    (e, ⟨false, false, none, none, none, "Jocul nu este activ!", none, none, none⟩)
  else
    let e1 : Engine :=
      { e with stats := { e.stats with totalMoves := e.stats.totalMoves + 1 } }
    match e1.stepQueue[e1.currentStepIndex]? with
    | none =>
        if engineIsSorted e1 then
          (completeGame e1,
            ⟨true, true, some true, none, none,
              "Felicitări! Array-ul este deja sortat!", none, none, none⟩)
        else
          (e1, ⟨false, false, none, none, none,
            "Nu mai sunt mutări necesare. Verifică soluția!", none, none, none⟩)
    | some expectedStep =>
        if validateMove (some expectedStep) index1 index2 then
          let e2 : Engine :=
            { e1 with
              numbers := swapIntIdx e1.numbers index1 index2,
              currentStepIndex := e1.currentStepIndex + 1,
              stats := { e1.stats with correctMoves := e1.stats.correctMoves + 1 } }
          let isComplete := decide (e2.stepQueue.length ≤ e2.currentStepIndex)
          let e3 := if isComplete then completeGame e2 else e2
          (e3, ⟨true, true, some isComplete, some (index1, index2), none,
            "Corect! Continuă.", some (engineNextHint e3), none,
            some (getProgress e3)⟩)
        else
          let e2 : Engine :=
            { e1 with
              stats := { e1.stats with incorrectMoves := e1.stats.incorrectMoves + 1 } }
          (e2, ⟨false, false, none, some (index1, index2),
            some expectedStep.indices,
            getErrorMessage e2.currentAlgorithm (some expectedStep) index1 index2,
            none, some (engineNextHint e2), none⟩)

/-- `selectElement` of game-engine.js (lines 144-180). -/
def selectElement (e : Engine) (index : Int) : Engine × SelectResult :=
  if e.state ≠ GameState.playing then
    (e, SelectResult.notActive "Jocul nu este activ!")
  else if index < 0 ∨ (e.numbers.length : Int) ≤ index then
    (e, SelectResult.invalidIndex "Index invalid!")
  else
    match e.selectedIndex with
    | none =>
        ({ e with selectedIndex := some index },
          SelectResult.selected index
            ("Selectat " ++ toString (idx e.numbers index.toNat)
              ++ ". Alege alt element pentru schimbare."))
    | some sel =>
        if sel = index then
          ({ e with selectedIndex := none }, SelectResult.deselected "Selecție anulată.")
        else
          let e1 : Engine := { e with selectedIndex := none }
          let p := attemptSwap e1 sel index
          (p.1, SelectResult.swapAttempt p.2)

/-- Deterministic tail of `generateRandomNumbers` (game-engine.js lines
81-88): the rejection-sampled `Set` and the Fisher–Yates shuffle are pure
randomness, taken here as the oracle argument `shuffled`; the final
already-sorted fixup (swap the first two elements) is modelled exactly. -/
def generateRandomNumbers (shuffled : List Int) : List Int :=
  if isSortedList shuffled then listSwap shuffled 0 1 else shuffled

/-- What the random construction of `generateRandomNumbers` (lines 64-79)
guarantees about its draw when called with no arguments, as `startNewGame`
does: 5 to 7 distinct integers from [1, 20] in some order. -/
def RandOK (shuffled : List Int) : Prop :=
  shuffled.Nodup ∧ 5 ≤ shuffled.length ∧ shuffled.length ≤ 7 ∧
    ∀ x ∈ shuffled, 1 ≤ x ∧ x ≤ 20

/-- Deterministic core of `startNewGame` (game-engine.js lines 106-137)
once the algorithm and the fresh sequence are fixed: build the plan, set
cursor 0, enter `playing`, and return the start record. -/
def initSession (alg : AlgKey) (nums : List Int) : Engine × StartResult :=
  let plan := generateSteps alg nums
  let e : Engine :=
    ⟨GameState.playing, nums, nums, some alg, plan, 0, none, ⟨0, 0, 0⟩⟩
  (e, ⟨nums, alg, plan.length, getNextMoveHint (some alg) plan[0]?⟩)

/-- `startNewGame` of game-engine.js (lines 106-137).  The prior engine is
discarded by `reset()`; `randAlg` is the oracle for `selectRandomAlgorithm`
(used when the key is absent or unrecognized) and `shuffled` the oracle for
the random draw of `generateRandomNumbers`. -/
def startNewGame (_e : Engine) (algorithmKey : Option String) (randAlg : AlgKey)
    (shuffled : List Int) : Engine × StartResult :=
  let alg : AlgKey :=
    match algorithmKey with
    | some k => (lookupAlgorithm k).getD randAlg
    | none => randAlg
  initSession alg (generateRandomNumbers shuffled)

/-- `changeAlgorithm` of game-engine.js (lines 363-368): an unrecognized
key throws before any state is touched. -/
def changeAlgorithm (e : Engine) (algorithmKey : String) (randAlg : AlgKey)
    (shuffled : List Int) : Engine × Except String StartResult :=
  match lookupAlgorithm algorithmKey with
  | some _ =>
      let p := startNewGame e (some algorithmKey) randAlg shuffled
      (p.1, Except.ok p.2)
  | none => (e, Except.error ("Algoritm necunoscut: " ++ algorithmKey))

/-- Session states reachable by a `startNewGame` (with oracles satisfying
the random-generation contract) followed by any sequence of `selectElement`
calls. -/
inductive Reachable : Engine → Prop where
  | start : ∀ (e₀ : Engine) (key : Option String) (randAlg : AlgKey)
      (shuffled : List Int), RandOK shuffled →
      Reachable (startNewGame e₀ key randAlg shuffled).1
  | select : ∀ (e : Engine) (i : Int), Reachable e → Reachable (selectElement e i).1

/-- The session invariant maintained by every reachable state. -/
structure Inv (e : Engine) : Prop where
  stateOk : e.state = GameState.playing ∨ e.state = GameState.completed
  algSome : ∃ k, e.currentAlgorithm = some k
  planEq : ∀ k, e.currentAlgorithm = some k →
    e.stepQueue = generateSteps k e.originalNumbers
  replayEq : e.numbers = applySteps (e.stepQueue.take e.currentStepIndex) e.originalNumbers
  cursorLe : e.currentStepIndex ≤ e.stepQueue.length
  playingLt : e.state = GameState.playing → e.currentStepIndex < e.stepQueue.length
  planNe : e.stepQueue ≠ []
  statsEq : e.stats.totalMoves = e.stats.correctMoves + e.stats.incorrectMoves

/-- Engine of the concrete bubble scenario on `[5, 3, 4]`. -/
def demoBubbleEngine : Engine := (initSession AlgKey.bubble [5, 3, 4]).1

@[simp] theorem idx_nil (i : Nat) : idx [] i = 0 := rfl

@[simp] theorem idx_cons_zero (x : Int) (xs : List Int) : idx (x :: xs) 0 = x := rfl

@[simp] theorem idx_cons_succ (x : Int) (xs : List Int) (k : Nat) :
    idx (x :: xs) (k + 1) = idx xs k := rfl

@[simp] theorem length_listSwap (a : List Int) (i j : Nat) :
    (listSwap a i j).length = a.length := by
  simp [listSwap]

theorem idx_set_self {a : List Int} {i : Nat} (h : i < a.length) (v : Int) :
    idx (a.set i v) i = v := by
  simp [idx, List.getElem?_set_self h]

theorem idx_set_ne {i k : Nat} (h : i ≠ k) (a : List Int) (v : Int) :
    idx (a.set i v) k = idx a k := by
  simp [idx, List.getElem?_set_ne h]

theorem idx_listSwap_fst {a : List Int} {i j : Nat} (hi : i < a.length)
    (hj : j < a.length) : idx (listSwap a i j) i = idx a j := by
  unfold listSwap
  by_cases hij : i = j
  · subst hij
    rw [idx_set_self (by simpa using hi)]
  · rw [idx_set_ne (fun h => hij h.symm), idx_set_self hi]

theorem idx_listSwap_snd {a : List Int} {i j : Nat} (hj : j < a.length) :
    idx (listSwap a i j) j = idx a i := by
  unfold listSwap
  rw [idx_set_self (by simpa using hj)]

theorem idx_listSwap_other {i j k : Nat} (h1 : k ≠ i) (h2 : k ≠ j)
    (a : List Int) : idx (listSwap a i j) k = idx a k := by
  unfold listSwap
  rw [idx_set_ne (fun h => h2 h.symm), idx_set_ne (fun h => h1 h.symm)]

theorem listSwap_comm (a : List Int) (i j : Nat) :
    listSwap a i j = listSwap a j i := by
  by_cases hij : i = j
  · subst hij; rfl
  · unfold listSwap
    exact List.set_comm _ _ _ hij

theorem set_idx_self : ∀ (a : List Int) (i : Nat), i < a.length →
    a.set i (idx a i) = a := by
  intro a
  induction a with
  | nil => intro i h; simp at h
  | cons x t ih =>
    intro i h
    match i with
    | 0 => rfl
    | k + 1 =>
      simp only [idx_cons_succ, List.set_cons_succ, List.cons.injEq, true_and]
      exact ih k (by simpa using h)

theorem consSwap_perm : ∀ (t : List Int) (m : Nat), m < t.length → ∀ (x : Int),
    (idx t m :: t.set m x).Perm (x :: t) := by
  intro t
  induction t with
  | nil => intro m h; simp at h
  | cons y t' ih =>
    intro m hm x
    match m with
    | 0 => exact List.Perm.swap x y t'
    | k + 1 =>
      have h1 : (idx t' k :: y :: t'.set k x).Perm (y :: idx t' k :: t'.set k x) :=
        List.Perm.swap y (idx t' k) _
      have h2 : (y :: idx t' k :: t'.set k x).Perm (y :: x :: t') :=
        List.Perm.cons y (ih k (by simpa using hm) x)
      have h3 : (y :: x :: t').Perm (x :: y :: t') := List.Perm.swap x y t'
      simpa using (h1.trans h2).trans h3

theorem listSwap_perm : ∀ (a : List Int) (i j : Nat), i < a.length →
    j < a.length → (listSwap a i j).Perm a := by
  intro a
  induction a with
  | nil => intro i j hi; simp at hi
  | cons x t ih =>
    intro i j hi hj
    match i, j with
    | 0, 0 =>
      show ((((x :: t).set 0 (idx (x :: t) 0)).set 0 (idx (x :: t) 0)).Perm (x :: t))
      simp
    | 0, m + 1 =>
      show ((idx t m :: t).set (m + 1) x).Perm (x :: t)
      simpa using consSwap_perm t m (by simpa using hj) x
    | m + 1, 0 =>
      rw [listSwap_comm]
      show ((idx t m :: t).set (m + 1) x).Perm (x :: t)
      simpa using consSwap_perm t m (by simpa using hi) x
    | m + 1, k + 1 =>
      show (x :: listSwap t m k).Perm (x :: t)
      exact List.Perm.cons x (ih m k (by simpa using hi) (by simpa using hj))

theorem isSortedList_iff : ∀ (a : List Int), isSortedList a = true ↔ AdjOK a := by
  intro a
  induction a with
  | nil =>
    constructor
    · intro _ t ht; simp at ht
    · intro _; rfl
  | cons x t ih =>
    cases t with
    | nil =>
      constructor
      · intro _ k hk; simp at hk
      · intro _; rfl
    | cons y t' =>
      constructor
      · intro h k hk
        rw [isSortedList, Bool.and_eq_true, decide_eq_true_eq] at h
        match k with
        | 0 => exact h.1
        | k + 1 =>
          exact (ih.mp h.2) k (by simpa using hk)
      · intro h
        rw [isSortedList, Bool.and_eq_true, decide_eq_true_eq]
        refine ⟨h 0 (by simp), ih.mpr ?_⟩
        intro k hk
        exact h (k + 1) (by simpa using hk)

theorem adjOK_chain {a : List Int} (h : AdjOK a) :
    ∀ (d p : Nat), p + d < a.length → idx a p ≤ idx a (p + d) := by
  intro d
  induction d with
  | zero => intro p _; exact le_refl _
  | succ n ihn =>
    intro p hp
    calc idx a p ≤ idx a (p + n) := ihn p (by omega)
      _ ≤ idx a (p + n + 1) := h (p + n) (by omega)

theorem adjOK_pairOK {a : List Int} (h : AdjOK a) : PairOK a := by
  intro p q hpq hq
  have := adjOK_chain h (q - p) p (by omega)
  have hpq' : p + (q - p) = q := by omega
  rwa [hpq'] at this

theorem pairOK_adjOK {a : List Int} (h : PairOK a) : AdjOK a := by
  intro t ht
  exact h t (t + 1) (by omega) ht

@[simp] theorem applySteps_nil (a : List Int) : applySteps [] a = a := rfl

@[simp] theorem applySteps_cons (s : Step) (ss : List Step) (a : List Int) :
    applySteps (s :: ss) a = applySteps ss (listSwap a s.indices.1 s.indices.2) := rfl

theorem applySteps_append (ss ts : List Step) (a : List Int) :
    applySteps (ss ++ ts) a = applySteps ts (applySteps ss a) := by
  simp [applySteps, List.foldl_append]

theorem length_applySteps : ∀ (ss : List Step) (a : List Int),
    (applySteps ss a).length = a.length := by
  intro ss
  induction ss with
  | nil => intro a; rfl
  | cons s t ih => intro a; rw [applySteps_cons, ih, length_listSwap]

theorem coherent_append : ∀ {ss : List Step} {a : List Int} (ts : List Step),
    Coherent a ss → Coherent (applySteps ss a) ts → Coherent a (ss ++ ts) := by
  intro ss
  induction ss with
  | nil => intro a ts _ h2; simpa using h2
  | cons s t ih =>
    intro a ts h1 h2
    rw [Coherent] at h1
    rw [List.cons_append, Coherent]
    exact ⟨h1.1, h1.2.1, h1.2.2.1, h1.2.2.2.1, h1.2.2.2.2.1,
      ih ts h1.2.2.2.2.2 (by simpa using h2)⟩

theorem traceOK_append {a b c : List Int} {ss ts : List Step}
    (h1 : TraceOK a ss b) (h2 : TraceOK b ts c) : TraceOK a (ss ++ ts) c := by
  refine ⟨coherent_append ts h1.1 ?_, ?_⟩
  · rw [h1.2]; exact h2.1
  · rw [applySteps_append, h1.2, h2.2]

theorem traceOK_nil (a : List Int) : TraceOK a [] a := ⟨trivial, rfl⟩

theorem coherent_values_at : ∀ (ss : List Step) (a : List Int) (k : Nat) (s : Step),
    Coherent a ss → ss[k]? = some s →
    s.values.1 = idx (applySteps (ss.take k) a) s.indices.1 ∧
    s.values.2 = idx (applySteps (ss.take k) a) s.indices.2 := by
  intro ss
  induction ss with
  | nil => intro a k s _ hk; simp at hk
  | cons s0 t ih =>
    intro a k s hc hk
    rw [Coherent] at hc
    match k with
    | 0 =>
      simp only [List.getElem?_cons_zero, Option.some.injEq] at hk
      subst hk
      exact ⟨hc.2.2.2.1, hc.2.2.2.2.1⟩
    | k + 1 =>
      simp only [List.getElem?_cons_succ] at hk
      simpa using ih (listSwap a s0.indices.1 s0.indices.2) k s hc.2.2.2.2.2 hk

theorem bi_fst_length : ∀ (k : Nat) (a : List Int) (j : Nat),
    ((bubbleInner a j k).1).length = a.length := by
  intro k
  induction k with
  | zero => intro a j; rfl
  | succ n ih =>
    intro a j
    by_cases h : idx a (j + 1) < idx a j
    · simp only [bubbleInner, if_pos h]
      rw [ih, length_listSwap]
    · simp only [bubbleInner, if_neg h]
      exact ih a (j + 1)

theorem bi_untouched : ∀ (k : Nat) (a : List Int) (j : Nat) (p : Nat),
    (p < j ∨ j + k < p) → idx (bubbleInner a j k).1 p = idx a p := by
  intro k
  induction k with
  | zero => intro a j p _; rfl
  | succ n ih =>
    intro a j p hp
    have hp' : p < j + 1 ∨ (j + 1) + n < p := by omega
    by_cases h : idx a (j + 1) < idx a j
    · simp only [bubbleInner, if_pos h]
      rw [ih _ _ _ hp']
      exact idx_listSwap_other (by omega) (by omega) a
    · simp only [bubbleInner, if_neg h]
      exact ih _ _ _ hp'

theorem bi_trace : ∀ (k : Nat) (a : List Int) (j : Nat), j + k < a.length →
    TraceOK a (bubbleInner a j k).2.1 (bubbleInner a j k).1 := by
  intro k
  induction k with
  | zero => intro a j _; exact traceOK_nil a
  | succ n ih =>
    intro a j hk
    by_cases h : idx a (j + 1) < idx a j
    · simp only [bubbleInner, if_pos h]
      have hlen : (j + 1) + n < (listSwap a j (j + 1)).length := by
        rw [length_listSwap]; omega
      have htail := ih (listSwap a j (j + 1)) (j + 1) hlen
      refine ⟨?_, ?_⟩
      · rw [Coherent]
        refine ⟨?_, ?_, ?_, ?_, ?_, htail.1⟩
        · show j < a.length; omega
        · show j + 1 < a.length; omega
        · show j ≠ j + 1; omega
        · rfl
        · rfl
      · rw [applySteps_cons]
        exact htail.2
    · simp only [bubbleInner, if_neg h]
      exact ih a (j + 1) (by omega)

theorem bi_steps_le : ∀ (k : Nat) (a : List Int) (j : Nat),
    (bubbleInner a j k).2.1.length ≤ k := by
  intro k
  induction k with
  | zero => intro a j; exact Nat.le_refl 0
  | succ n ih =>
    intro a j
    by_cases h : idx a (j + 1) < idx a j
    · simp only [bubbleInner, if_pos h, List.length_cons]
      exact Nat.succ_le_succ (ih _ _)
    · simp only [bubbleInner, if_neg h]
      exact Nat.le_succ_of_le (ih _ _)

theorem bi_false : ∀ (k : Nat) (a : List Int) (j : Nat),
    (bubbleInner a j k).2.2 = false →
    (bubbleInner a j k).1 = a ∧ (bubbleInner a j k).2.1 = [] := by
  intro k
  induction k with
  | zero => intro a j _; exact ⟨rfl, rfl⟩
  | succ n ih =>
    intro a j hf
    by_cases h : idx a (j + 1) < idx a j
    · exfalso
      have htrue : (bubbleInner a j (n + 1)).2.2 = true := by
        simp only [bubbleInner, if_pos h]
      rw [htrue] at hf
      exact Bool.noConfusion hf
    · simp only [bubbleInner, if_neg h] at hf ⊢
      exact ih a (j + 1) hf

theorem bi_false_iff : ∀ (k : Nat) (a : List Int) (j : Nat),
    (bubbleInner a j k).2.2 = false ↔
    (∀ t, j ≤ t → t < j + k → idx a t ≤ idx a (t + 1)) := by
  intro k
  induction k with
  | zero =>
    intro a j
    constructor
    · intro _ t _ ht; omega
    · intro _; rfl
  | succ n ih =>
    intro a j
    by_cases h : idx a (j + 1) < idx a j
    · have htrue : (bubbleInner a j (n + 1)).2.2 = true := by
        simp only [bubbleInner, if_pos h]
      constructor
      · intro hf
        rw [htrue] at hf
        exact Bool.noConfusion hf
      · intro hs
        have := hs j (Nat.le_refl j) (by omega)
        omega
    · simp only [bubbleInner, if_neg h]
      rw [ih a (j + 1)]
      constructor
      · intro hs t ht1 ht2
        rcases Nat.eq_or_lt_of_le ht1 with he | hl
        · subst he; omega
        · exact hs t hl (by omega)
      · intro hs t ht1 ht2
        exact hs t (by omega) (by omega)

theorem bi_max : ∀ (k : Nat) (a : List Int) (j : Nat), j + k < a.length →
    ∀ p, j ≤ p → p ≤ j + k → idx a p ≤ idx (bubbleInner a j k).1 (j + k) := by
  intro k
  induction k with
  | zero =>
    intro a j _ p h1 h2
    have : p = j := by omega
    subst this
    exact le_refl _
  | succ n ih =>
    intro a j hk p h1 h2
    have hj1 : j + 1 < a.length := by omega
    by_cases h : idx a (j + 1) < idx a j
    · simp only [bubbleInner, if_pos h]
      have hlen : (j + 1) + n < (listSwap a j (j + 1)).length := by
        rw [length_listSwap]; omega
      have heq : j + (n + 1) = (j + 1) + n := by omega
      rw [heq]
      rcases Nat.lt_or_ge p (j + 2) with hp | hp
      · rcases Nat.eq_or_lt_of_le h1 with he | hl
        · -- p = j
          subst he
          have hswap : idx a j = idx (listSwap a j (j + 1)) (j + 1) :=
            (idx_listSwap_snd hj1).symm
          rw [hswap]
          exact ih _ (j + 1) hlen (j + 1) (Nat.le_refl _) (by omega)
        · -- p = j + 1
          have : p = j + 1 := by omega
          subst this
          have h2' : idx a (j + 1) ≤ idx (listSwap a j (j + 1)) (j + 1) := by
            rw [idx_listSwap_snd hj1]
            exact le_of_lt h
          exact le_trans h2' (ih _ (j + 1) hlen (j + 1) (Nat.le_refl _) (by omega))
      · -- p ≥ j + 2 : untouched by the swap
        have : idx a p = idx (listSwap a j (j + 1)) p :=
          (idx_listSwap_other (by omega) (by omega) a).symm
        rw [this]
        exact ih _ (j + 1) hlen p (by omega) (by omega)
    · simp only [bubbleInner, if_neg h]
      have heq : j + (n + 1) = (j + 1) + n := by omega
      rw [heq]
      rcases Nat.eq_or_lt_of_le h1 with he | hl
      · subst he
        exact le_trans (not_lt.mp h) (ih a (j + 1) (by omega) (j + 1) (Nat.le_refl _) (by omega))
      · exact ih a (j + 1) (by omega) p (by omega) (by omega)

theorem bi_from_range : ∀ (k : Nat) (a : List Int) (j : Nat), j + k < a.length →
    ∀ q, j ≤ q → q ≤ j + k →
    ∃ p, j ≤ p ∧ p ≤ j + k ∧ idx (bubbleInner a j k).1 q = idx a p := by
  intro k
  induction k with
  | zero => intro a j _ q h1 h2; exact ⟨q, h1, h2, rfl⟩
  | succ n ih =>
    intro a j hk q h1 h2
    have hj1 : j + 1 < a.length := by omega
    by_cases h : idx a (j + 1) < idx a j
    · simp only [bubbleInner, if_pos h]
      have hlen : (j + 1) + n < (listSwap a j (j + 1)).length := by
        rw [length_listSwap]; omega
      rcases Nat.eq_or_lt_of_le h1 with he | hl
      · -- q = j : untouched by the recursive pass, holds the swapped-in value
        subst he
        refine ⟨j + 1, by omega, by omega, ?_⟩
        rw [bi_untouched n _ (j + 1) j (by omega)]
        exact idx_listSwap_fst (by omega) hj1
      · -- q ≥ j + 1
        obtain ⟨p', hp1, hp2, hp3⟩ := ih _ (j + 1) hlen q hl (by omega)
        rcases Nat.eq_or_lt_of_le hp1 with he' | hl'
        · refine ⟨j, Nat.le_refl _, by omega, ?_⟩
          rw [hp3, ← he', idx_listSwap_snd hj1]
        · refine ⟨p', by omega, by omega, ?_⟩
          rw [hp3]
          exact idx_listSwap_other (by omega) (by omega) a
    · simp only [bubbleInner, if_neg h]
      rcases Nat.eq_or_lt_of_le h1 with he | hl
      · subst he
        refine ⟨j, Nat.le_refl _, by omega, ?_⟩
        exact bi_untouched n a (j + 1) j (by omega)
      · obtain ⟨p', hp1, hp2, hp3⟩ := ih a (j + 1) (by omega) q hl (by omega)
        exact ⟨p', by omega, by omega, hp3⟩

theorem bo_master : ∀ (m n : Nat) (a : List Int) (i : Nat),
    a.length = n → i + m + 1 = n →
    (∀ p q, p < n - i → n - i ≤ q → q < n → idx a p ≤ idx a q) →
    (∀ t, n - i ≤ t → t + 1 < n → idx a t ≤ idx a (t + 1)) →
    TraceOK a (bubbleOuter n a i m).2 (bubbleOuter n a i m).1 ∧
    AdjOK (bubbleOuter n a i m).1 ∧ (bubbleOuter n a i m).1.length = a.length := by
  intro m
  induction m with
  | zero =>
    intro n a i hn him hdom hadj
    simp only [bubbleOuter]
    refine ⟨traceOK_nil a, ?_, trivial⟩
    intro t ht
    rw [hn] at ht
    rcases Nat.lt_or_ge t (n - i) with hlt | hge
    · have ht0 : t = 0 := by omega
      subst ht0
      exact hdom 0 1 (by omega) (by omega) (by omega)
    · exact hadj t hge ht
  | succ m ih =>
    intro n a i hn him hdom hadj
    have hk1 : 1 ≤ n - i - 1 := by omega
    have hk : 0 + (n - i - 1) < a.length := by omega
    by_cases hf : (bubbleInner a 0 (n - i - 1)).2.2 = true
    · simp only [bubbleOuter, if_pos hf]
      have hPlen : (bubbleInner a 0 (n - i - 1)).1.length = n := by
        rw [bi_fst_length]; exact hn
      have hdom' : ∀ p q, p < n - (i + 1) → n - (i + 1) ≤ q → q < n →
          idx (bubbleInner a 0 (n - i - 1)).1 p ≤ idx (bubbleInner a 0 (n - i - 1)).1 q := by
        intro p q hp hq hqn
        have hki : n - (i + 1) = n - i - 1 := by omega
        rw [hki] at hp hq
        obtain ⟨p0, _, hp02, hp03⟩ :=
          bi_from_range (n - i - 1) a 0 hk p (Nat.zero_le p) (by omega)
        rw [hp03]
        rcases Nat.eq_or_lt_of_le hq with he | hl
        · rw [← he]
          have := bi_max (n - i - 1) a 0 hk p0 (Nat.zero_le p0) hp02
          rwa [Nat.zero_add] at this
        · rw [bi_untouched (n - i - 1) a 0 q (Or.inr (by omega))]
          exact hdom p0 q (by omega) (by omega) hqn
      have hadj' : ∀ t, n - (i + 1) ≤ t → t + 1 < n →
          idx (bubbleInner a 0 (n - i - 1)).1 t ≤
          idx (bubbleInner a 0 (n - i - 1)).1 (t + 1) := by
        intro t ht htn
        have hki : n - (i + 1) = n - i - 1 := by omega
        rw [hki] at ht
        rcases Nat.eq_or_lt_of_le ht with he | hl
        · rw [bi_untouched (n - i - 1) a 0 (t + 1) (Or.inr (by omega))]
          obtain ⟨p0, _, hp02, hp03⟩ :=
            bi_from_range (n - i - 1) a 0 hk t (Nat.zero_le t) (by omega)
          rw [hp03]
          exact hdom p0 (t + 1) (by omega) (by omega) htn
        · rw [bi_untouched (n - i - 1) a 0 t (Or.inr (by omega)),
            bi_untouched (n - i - 1) a 0 (t + 1) (Or.inr (by omega))]
          exact hadj t (by omega) htn
      obtain ⟨ihT, ihA, ihL⟩ :=
        ih n (bubbleInner a 0 (n - i - 1)).1 (i + 1) hPlen (by omega) hdom' hadj'
      refine ⟨traceOK_append (bi_trace (n - i - 1) a 0 hk) ihT, ihA, ?_⟩
      rw [ihL, hPlen, hn]
    · have hf' : (bubbleInner a 0 (n - i - 1)).2.2 = false := by
        revert hf
        cases (bubbleInner a 0 (n - i - 1)).2.2 <;> simp
      simp only [bubbleOuter, if_neg hf]
      obtain ⟨hout, hsteps⟩ := bi_false (n - i - 1) a 0 hf'
      rw [hout, hsteps]
      refine ⟨traceOK_nil a, ?_, rfl⟩
      have hrange := (bi_false_iff (n - i - 1) a 0).mp hf'
      intro t ht
      rw [hn] at ht
      rcases Nat.lt_or_ge t (n - i - 1) with hlt | hge
      · exact hrange t (Nat.zero_le t) (by omega)
      · rcases Nat.eq_or_lt_of_le hge with he | hl
        · exact hdom t (t + 1) (by omega) (by omega) (by omega)
        · exact hadj t (by omega) (by omega)

/-- Bubble sort: the generated plan is a coherent trace from the input
whose replay ends in the pass-simulation's final array, and that array is
non-decreasing. -/
theorem bubble_master (arr : List Int) :
    TraceOK arr (generateBubbleSortSteps arr)
      (bubbleOuter arr.length arr 0 (arr.length - 1)).1 ∧
    AdjOK (bubbleOuter arr.length arr 0 (arr.length - 1)).1 := by
  rcases Nat.lt_or_ge arr.length 2 with hsmall | hbig
  · have h0 : arr.length - 1 = 0 := by omega
    rw [generateBubbleSortSteps, h0]
    simp only [bubbleOuter]
    refine ⟨traceOK_nil arr, ?_⟩
    intro t ht
    omega
  · have := bo_master (arr.length - 1) arr.length arr 0 rfl (by omega)
      (by intro p q _ hq hqn; omega)
      (by intro t ht htn; omega)
    exact ⟨this.1, this.2.1⟩

theorem fm_mem : ∀ (k : Nat) (a : List Int) (minIdx j : Nat),
    findMinIdx a minIdx j k = minIdx ∨
    (j ≤ findMinIdx a minIdx j k ∧ findMinIdx a minIdx j k < j + k) := by
  intro k
  induction k with
  | zero => intro a minIdx j; exact Or.inl rfl
  | succ n ih =>
    intro a minIdx j
    by_cases h : idx a j < idx a minIdx
    · simp only [findMinIdx, if_pos h]
      rcases ih a j (j + 1) with he | ⟨h1, h2⟩
      · exact Or.inr ⟨by omega, by omega⟩
      · exact Or.inr ⟨by omega, by omega⟩
    · simp only [findMinIdx, if_neg h]
      rcases ih a minIdx (j + 1) with he | ⟨h1, h2⟩
      · exact Or.inl he
      · exact Or.inr ⟨by omega, by omega⟩

theorem fm_min : ∀ (k : Nat) (a : List Int) (minIdx j : Nat),
    idx a (findMinIdx a minIdx j k) ≤ idx a minIdx ∧
    ∀ q, j ≤ q → q < j + k → idx a (findMinIdx a minIdx j k) ≤ idx a q := by
  intro k
  induction k with
  | zero =>
    intro a minIdx j
    exact ⟨le_refl _, fun q h1 h2 => by omega⟩
  | succ n ih =>
    intro a minIdx j
    by_cases h : idx a j < idx a minIdx
    · simp only [findMinIdx, if_pos h]
      obtain ⟨ih1, ih2⟩ := ih a j (j + 1)
      refine ⟨le_trans ih1 (le_of_lt h), ?_⟩
      intro q h1 h2
      rcases Nat.eq_or_lt_of_le h1 with he | hl
      · rw [← he]; exact ih1
      · exact ih2 q hl (by omega)
    · simp only [findMinIdx, if_neg h]
      obtain ⟨ih1, ih2⟩ := ih a minIdx (j + 1)
      refine ⟨ih1, ?_⟩
      intro q h1 h2
      rcases Nat.eq_or_lt_of_le h1 with he | hl
      · rw [← he]; exact le_trans ih1 (not_lt.mp h)
      · exact ih2 q hl (by omega)

theorem fm_eq_iff : ∀ (k : Nat) (a : List Int) (minIdx j : Nat), minIdx < j →
    (findMinIdx a minIdx j k = minIdx ↔
      ∀ q, j ≤ q → q < j + k → idx a minIdx ≤ idx a q) := by
  intro k
  induction k with
  | zero =>
    intro a minIdx j _
    constructor
    · intro _ q h1 h2; omega
    · intro _; rfl
  | succ n ih =>
    intro a minIdx j hmj
    by_cases h : idx a j < idx a minIdx
    · simp only [findMinIdx, if_pos h]
      constructor
      · intro he
        exfalso
        rcases fm_mem n a j (j + 1) with hm | ⟨hm1, _⟩ <;> omega
      · intro hs
        exfalso
        have := hs j (Nat.le_refl j) (by omega)
        omega
    · simp only [findMinIdx, if_neg h]
      rw [ih a minIdx (j + 1) (by omega)]
      constructor
      · intro hs q h1 h2
        rcases Nat.eq_or_lt_of_le h1 with he | hl
        · rw [← he]; exact not_lt.mp h
        · exact hs q hl (by omega)
      · intro hs q h1 h2
        exact hs q (by omega) (by omega)

theorem so_master : ∀ (m n : Nat) (a : List Int) (i : Nat),
    a.length = n → i + m + 1 = n →
    (∀ p q, p < i → p < q → q < n → idx a p ≤ idx a q) →
    TraceOK a (selOuter n a i m).2 (selOuter n a i m).1 ∧
    (∀ p q, p < q → q < n → idx (selOuter n a i m).1 p ≤ idx (selOuter n a i m).1 q) ∧
    (selOuter n a i m).1.length = a.length := by
  intro m
  induction m with
  | zero =>
    intro n a i hn him hdom
    simp only [selOuter]
    refine ⟨traceOK_nil a, ?_, trivial⟩
    intro p q hpq hq
    exact hdom p q (by omega) hpq hq
  | succ m ih =>
    intro n a i hn him hdom
    have hin : i < n := by omega
    have hrange : (i + 1) + (n - i - 1) = n := by omega
    obtain ⟨hm1, hm2⟩ := fm_min (n - i - 1) a i (i + 1)
    rw [hrange] at hm2
    by_cases hmd : findMinIdx a i (i + 1) (n - i - 1) = i
    · simp only [selOuter, if_pos hmd]
      refine ih n a (i + 1) hn (by omega) ?_
      intro p q hp hpq hq
      rcases Nat.lt_or_ge p i with hpi | hpi
      · exact hdom p q hpi hpq hq
      · have hpe : p = i := by omega
        subst hpe
        have := hm2 q (by omega) hq
        rwa [hmd] at this
    · simp only [selOuter, if_neg hmd]
      have hmdr : i + 1 ≤ findMinIdx a i (i + 1) (n - i - 1) ∧
          findMinIdx a i (i + 1) (n - i - 1) < n := by
        rcases fm_mem (n - i - 1) a i (i + 1) with hm | ⟨h1, h2⟩
        · exact absurd hm hmd
        · exact ⟨h1, by omega⟩
      have hdom' : ∀ p q, p < i + 1 → p < q → q < n →
          idx (listSwap a i (findMinIdx a i (i + 1) (n - i - 1))) p ≤
          idx (listSwap a i (findMinIdx a i (i + 1) (n - i - 1))) q := by
        intro p q hp hpq hq
        rcases Nat.lt_or_ge p i with hpi | hpi
        · -- p strictly before the boundary: untouched, dominated by old dom
          rw [idx_listSwap_other (by omega) (by omega) a]
          by_cases hqi : q = i
          · subst hqi
            rw [idx_listSwap_fst (by omega) (by omega)]
            exact hdom p _ hpi (by omega) (by omega)
          · by_cases hqm : q = findMinIdx a i (i + 1) (n - i - 1)
            · subst hqm
              rw [idx_listSwap_snd (by omega)]
              exact hdom p i hpi (by omega) (by omega)
            · rw [idx_listSwap_other hqi hqm a]
              exact hdom p q hpi hpq hq
        · -- p = i holds the fresh minimum
          have hpe : i = p := by omega
          subst hpe
          rw [idx_listSwap_fst (by omega) (by omega)]
          by_cases hqm : q = findMinIdx a i (i + 1) (n - i - 1)
          · subst hqm
            rw [idx_listSwap_snd (by omega)]
            exact hm1
          · rw [idx_listSwap_other (by omega) hqm a]
            exact hm2 q (by omega) hq
      have hlen' : (listSwap a i (findMinIdx a i (i + 1) (n - i - 1))).length = n := by
        rw [length_listSwap]; exact hn
      obtain ⟨ihT, ihP, ihL⟩ := ih n _ (i + 1) hlen' (by omega) hdom'
      refine ⟨?_, ihP, by rw [ihL, hlen', hn]⟩
      refine ⟨?_, ?_⟩
      · rw [Coherent]
        refine ⟨?_, ?_, ?_, ?_, ?_, ihT.1⟩
        · show i < a.length; omega
        · show findMinIdx a i (i + 1) (n - i - 1) < a.length; omega
        · show i ≠ findMinIdx a i (i + 1) (n - i - 1); omega
        · rfl
        · rfl
      · rw [applySteps_cons]
        exact ihT.2

theorem so_bound : ∀ (m n : Nat) (a : List Int) (i : Nat),
    (selOuter n a i m).2.length ≤ m := by
  intro m
  induction m with
  | zero => intro n a i; exact Nat.le_refl 0
  | succ m ih =>
    intro n a i
    by_cases hmd : findMinIdx a i (i + 1) (n - i - 1) = i
    · simp only [selOuter, if_pos hmd]
      exact Nat.le_succ_of_le (ih n a (i + 1))
    · simp only [selOuter, if_neg hmd, List.length_cons]
      exact Nat.succ_le_succ (ih n _ (i + 1))

theorem so_empty_iff : ∀ (m n : Nat) (a : List Int) (i : Nat), i + m + 1 = n →
    ((selOuter n a i m).2 = [] ↔
      ∀ ii, i ≤ ii → ii < i + m → ∀ q, ii < q → q < n → idx a ii ≤ idx a q) := by
  intro m
  induction m with
  | zero =>
    intro n a i _
    simp only [selOuter]
    constructor
    · intro _ ii h1 h2; omega
    · intro _; trivial
  | succ m ih =>
    intro n a i him
    have hrange : (i + 1) + (n - i - 1) = n := by omega
    have hiff := fm_eq_iff (n - i - 1) a i (i + 1) (by omega)
    rw [hrange] at hiff
    by_cases hmd : findMinIdx a i (i + 1) (n - i - 1) = i
    · simp only [selOuter, if_pos hmd]
      rw [ih n a (i + 1) (by omega)]
      constructor
      · intro hs ii h1 h2 q hq1 hq2
        rcases Nat.eq_or_lt_of_le h1 with he | hl
        · rw [← he]
          exact hiff.mp hmd q (by omega) hq2
        · exact hs ii hl (by omega) q hq1 hq2
      · intro hs ii h1 h2 q hq1 hq2
        exact hs ii (by omega) (by omega) q hq1 hq2
    · simp only [selOuter, if_neg hmd]
      constructor
      · intro hcon
        exact absurd hcon (List.cons_ne_nil _ _)
      · intro hs
        exfalso
        refine hmd (hiff.mpr ?_)
        intro q hq1 hq2
        exact hs i (Nat.le_refl i) (by omega) q (by omega) hq2

/-- Selection sort: the generated plan is a coherent trace from the input
whose replay ends in the simulation's final array, and that array is
non-decreasing. -/
theorem selection_master (arr : List Int) :
    TraceOK arr (generateSelectionSortSteps arr)
      (selOuter arr.length arr 0 (arr.length - 1)).1 ∧
    PairOK (selOuter arr.length arr 0 (arr.length - 1)).1 := by
  rcases Nat.eq_zero_or_pos arr.length with h0 | hpos
  · rw [generateSelectionSortSteps, h0]
    simp only [selOuter]
    refine ⟨traceOK_nil arr, ?_⟩
    intro p q hpq hq
    omega
  · obtain ⟨hT, hP, hL⟩ := so_master (arr.length - 1) arr.length arr 0 rfl
      (by omega) (by intro p q hp; omega)
    refine ⟨hT, ?_⟩
    intro p q hpq hq
    rw [hL] at hq
    exact hP p q hpq hq

/-- The condition of C5 for the selection variant: at every boundary the
minimum of the corresponding suffix already sits at the boundary. -/
theorem selection_empty_iff (arr : List Int) :
    generateSelectionSortSteps arr = [] ↔
    (∀ i, i + 1 < arr.length → ∀ j, i < j → j < arr.length → idx arr i ≤ idx arr j) := by
  rcases Nat.eq_zero_or_pos arr.length with h0 | hpos
  · rw [generateSelectionSortSteps, h0]
    simp only [selOuter]
    constructor
    · intro _ i hi; omega
    · intro _; trivial
  · rw [generateSelectionSortSteps,
      so_empty_iff (arr.length - 1) arr.length arr 0 (by omega)]
    constructor
    · intro hs i hi j hj1 hj2
      exact hs i (Nat.zero_le i) (by omega) j hj1 hj2
    · intro hs ii _ h2 q hq1 hq2
      exact hs ii (by omega) q hq1 hq2

theorem im_master : ∀ (j : Nat) (a : List Int) (M : Nat), j ≤ M → M < a.length →
    (∀ p q, p < q → q < j → idx a p ≤ idx a q) →
    (∀ p q, j ≤ p → p < q → q ≤ M → idx a p ≤ idx a q) →
    (∀ p q, p < j → j < q → q ≤ M → idx a p ≤ idx a q) →
    TraceOK a (insMove a j).2 (insMove a j).1 ∧
    (∀ p q, p < q → q ≤ M → idx (insMove a j).1 p ≤ idx (insMove a j).1 q) ∧
    (∀ q, M < q → idx (insMove a j).1 q = idx a q) ∧
    (insMove a j).1.length = a.length := by
  intro j
  induction j with
  | zero =>
    intro a M _ _ h1 h2 _
    refine ⟨traceOK_nil a, ?_, fun q _ => rfl, rfl⟩
    intro p q hpq hq
    exact h2 p q (Nat.zero_le p) hpq hq
  | succ j ih =>
    intro a M hjM hM h1 h2 h3
    by_cases h : idx a (j + 1) < idx a j
    · simp only [insMove, if_pos h]
      have hj1 : j + 1 < a.length := by omega
      have hlen : M < (listSwap a j (j + 1)).length := by
        rw [length_listSwap]; exact hM
      have h1' : ∀ p q, p < q → q < j →
          idx (listSwap a j (j + 1)) p ≤ idx (listSwap a j (j + 1)) q := by
        intro p q hpq hq
        rw [idx_listSwap_other (by omega) (by omega) a,
          idx_listSwap_other (by omega) (by omega) a]
        exact h1 p q hpq (by omega)
      have h2' : ∀ p q, j ≤ p → p < q → q ≤ M →
          idx (listSwap a j (j + 1)) p ≤ idx (listSwap a j (j + 1)) q := by
        intro p q hp hpq hq
        rcases Nat.eq_or_lt_of_le hp with hej | hlj
        · -- p = j
          rw [← hej]
          rw [show idx (listSwap a j (j + 1)) j = idx a (j + 1) from
            idx_listSwap_fst (by omega) hj1]
          rcases Nat.eq_or_lt_of_le (show j + 1 ≤ q by omega) with heq | hlq
          · rw [← heq, idx_listSwap_snd hj1]
            exact le_of_lt h
          · rw [idx_listSwap_other (by omega) (by omega) a]
            exact h2 (j + 1) q (Nat.le_refl _) hlq hq
        · rcases Nat.eq_or_lt_of_le hlj with hej1 | hlj1
          · -- p = j + 1
            rw [← hej1, idx_listSwap_snd hj1,
              idx_listSwap_other (by omega) (by omega) a]
            exact h3 j q (by omega) (by omega) hq
          · -- p ≥ j + 2
            rw [idx_listSwap_other (by omega) (by omega) a,
              idx_listSwap_other (by omega) (by omega) a]
            exact h2 p q (by omega) hpq hq
      have h3' : ∀ p q, p < j → j < q → q ≤ M →
          idx (listSwap a j (j + 1)) p ≤ idx (listSwap a j (j + 1)) q := by
        intro p q hp hq hqM
        rw [idx_listSwap_other (by omega) (by omega) a]
        rcases Nat.eq_or_lt_of_le (show j + 1 ≤ q by omega) with heq | hlq
        · rw [← heq, idx_listSwap_snd hj1]
          exact h1 p j hp (by omega)
        · rw [idx_listSwap_other (by omega) (by omega) a]
          exact h3 p q (by omega) (by omega) hqM
      obtain ⟨ihT, ihP, ihU, ihL⟩ := ih (listSwap a j (j + 1)) M (by omega) hlen h1' h2' h3'
      refine ⟨⟨?_, ?_⟩, ihP, ?_, by rw [ihL, length_listSwap]⟩
      · rw [Coherent]
        refine ⟨?_, ?_, ?_, ?_, ?_, ihT.1⟩
        · show j < a.length; omega
        · show j + 1 < a.length; omega
        · show j ≠ j + 1; omega
        · rfl
        · rfl
      · rw [applySteps_cons]
        exact ihT.2
      · intro q hq
        rw [ihU q hq]
        exact idx_listSwap_other (by omega) (by omega) a
    · have hstep : insMove a (j + 1) = (a, []) := by
        simp only [insMove, if_neg h]
      rw [hstep]
      refine ⟨traceOK_nil a, ?_, fun q _ => rfl, rfl⟩
      intro p q hpq hq
      rcases Nat.lt_or_ge q (j + 1) with hqj | hqj
      · exact h1 p q hpq hqj
      · rcases Nat.lt_or_ge p j with hpj | hpj
        · -- p before the junction
          rcases Nat.eq_or_lt_of_le hqj with heq | hlq
          · rw [← heq]
            exact le_trans (h1 p j hpj (by omega)) (not_lt.mp h)
          · exact h3 p q (by omega) (by omega) hq
        · rcases Nat.eq_or_lt_of_le hpj with hep | hlp
          · -- p = j
            rw [← hep]
            rcases Nat.eq_or_lt_of_le hqj with heq | hlq
            · rw [← heq]; exact not_lt.mp h
            · exact le_trans (not_lt.mp h) (h2 (j + 1) q (Nat.le_refl _) hlq hq)
          · exact h2 p q (by omega) hpq hq

theorem im_bound : ∀ (j : Nat) (a : List Int), (insMove a j).2.length ≤ j := by
  intro j
  induction j with
  | zero => intro a; exact Nat.le_refl 0
  | succ j ih =>
    intro a
    by_cases h : idx a (j + 1) < idx a j
    · simp only [insMove, if_pos h, List.length_cons]
      exact Nat.succ_le_succ (ih _)
    · simp only [insMove, if_neg h]
      exact Nat.zero_le _

theorem im_nil_succ (a : List Int) (j : Nat) :
    ((insMove a (j + 1)).2 = [] ↔ idx a j ≤ idx a (j + 1)) ∧
    ((insMove a (j + 1)).2 = [] → (insMove a (j + 1)).1 = a) := by
  by_cases h : idx a (j + 1) < idx a j
  · simp only [insMove, if_pos h]
    constructor
    · constructor
      · intro hcon
        exact absurd hcon (List.cons_ne_nil _ _)
      · intro hle; omega
    · intro hcon
      exact absurd hcon (List.cons_ne_nil _ _)
  · have hstep : insMove a (j + 1) = (a, []) := by
      simp only [insMove, if_neg h]
    rw [hstep]
    exact ⟨⟨fun _ => not_lt.mp h, fun _ => rfl⟩, fun _ => rfl⟩

theorem io_master : ∀ (m : Nat) (a : List Int) (i : Nat), i + m = a.length →
    (∀ p q, p < q → q < i → idx a p ≤ idx a q) →
    TraceOK a (insOuter a i m).2 (insOuter a i m).1 ∧
    (∀ p q, p < q → q < i + m → idx (insOuter a i m).1 p ≤ idx (insOuter a i m).1 q) ∧
    (insOuter a i m).1.length = a.length := by
  intro m
  induction m with
  | zero =>
    intro a i him hpre
    exact ⟨traceOK_nil a, fun p q hpq hq => hpre p q hpq hq, rfl⟩
  | succ m ih =>
    intro a i him hpre
    simp only [insOuter]
    obtain ⟨imT, imP, imU, imL⟩ := im_master i a i (Nat.le_refl i) (by omega)
      hpre (by intro p q hp hpq hq; omega) (by intro p q hp hq hqM; omega)
    obtain ⟨ioT, ioP, ioL⟩ := ih (insMove a i).1 (i + 1) (by rw [imL]; omega)
      (by
        intro p q hpq hq
        exact imP p q hpq (by omega))
    refine ⟨traceOK_append imT ioT, ?_, by rw [ioL, imL]⟩
    intro p q hpq hq
    exact ioP p q hpq (by omega)

theorem io_bound : ∀ (m : Nat) (a : List Int) (i : Nat),
    2 * (insOuter a i m).2.length ≤ m * (2 * i + m - 1) := by
  intro m
  induction m with
  | zero => intro a i; simp [insOuter]
  | succ m ih =>
    intro a i
    simp only [insOuter, List.length_append]
    have hP := im_bound i a
    have hR := ih (insMove a i).1 (i + 1)
    have e2 : 2 * i + (m + 1) - 1 = 2 * i + m := by omega
    have e3 : 2 * (i + 1) + m - 1 = 2 * i + m + 1 := by omega
    rw [e2]
    rw [e3] at hR
    have e1 : (m + 1) * (2 * i + m) = 2 * i + m * (2 * i + m + 1) := by ring
    rw [e1]
    linarith

theorem io_empty_iff : ∀ (m : Nat) (a : List Int) (i : Nat), 1 ≤ i →
    ((insOuter a i m).2 = [] ↔
      ∀ ii, i ≤ ii → ii < i + m → idx a (ii - 1) ≤ idx a ii) := by
  intro m
  induction m with
  | zero =>
    intro a i _
    simp only [insOuter]
    constructor
    · intro _ ii h1 h2; omega
    · intro _; trivial
  | succ m ih =>
    intro a i hi
    obtain ⟨j, rfl⟩ : ∃ j, i = j + 1 := ⟨i - 1, by omega⟩
    simp only [insOuter, List.append_eq_nil]
    obtain ⟨hnil_iff, hnil_fst⟩ := im_nil_succ a j
    by_cases h : idx a j ≤ idx a (j + 1)
    · have hP2 : (insMove a (j + 1)).2 = [] := hnil_iff.mpr h
      have hP1 : (insMove a (j + 1)).1 = a := hnil_fst hP2
      rw [hP2, hP1, ih a (j + 2) (by omega)]
      constructor
      · intro hs ii h1 h2
        rcases Nat.eq_or_lt_of_le h1 with he | hl
        · rw [← he]
          simpa using h
        · exact hs.2 ii (by omega) (by omega)
      · intro hs
        refine ⟨rfl, ?_⟩
        intro ii h1 h2
        exact hs ii (by omega) (by omega)
    · constructor
      · intro hcon
        exact absurd (hnil_iff.mp hcon.1) h
      · intro hs
        exfalso
        exact h (by simpa using hs (j + 1) (Nat.le_refl _) (by omega))

/-- Insertion sort: the generated plan is a coherent trace from the input
whose replay ends in the simulation's final array, and that array is
non-decreasing. -/
theorem insertion_master (arr : List Int) :
    TraceOK arr (generateInsertionSortSteps arr)
      (insOuter arr 1 (arr.length - 1)).1 ∧
    PairOK (insOuter arr 1 (arr.length - 1)).1 := by
  rcases Nat.eq_zero_or_pos arr.length with h0 | hpos
  · rw [generateInsertionSortSteps, h0]
    simp only [insOuter]
    refine ⟨traceOK_nil arr, ?_⟩
    intro p q hpq hq
    omega
  · obtain ⟨hT, hP, hL⟩ := io_master (arr.length - 1) arr 1 (by omega)
      (by intro p q hpq hq; omega)
    refine ⟨hT, ?_⟩
    intro p q hpq hq
    rw [hL] at hq
    exact hP p q hpq (by omega)

theorem insertion_empty_iff (arr : List Int) :
    generateInsertionSortSteps arr = [] ↔ AdjOK arr := by
  rcases Nat.eq_zero_or_pos arr.length with h0 | hpos
  · rw [generateInsertionSortSteps, h0]
    simp only [insOuter]
    constructor
    · intro _ t ht; omega
    · intro _; trivial
  · rw [generateInsertionSortSteps, io_empty_iff (arr.length - 1) arr 1 (Nat.le_refl 1)]
    constructor
    · intro hs t ht
      have := hs (t + 1) (by omega) (by omega)
      simpa using this
    · intro hs ii h1 h2
      have := hs (ii - 1) (by omega)
      have he : ii - 1 + 1 = ii := by omega
      rwa [he] at this

theorem bi_nil_flag : ∀ (k : Nat) (a : List Int) (j : Nat),
    (bubbleInner a j k).2.1 = [] → (bubbleInner a j k).2.2 = false := by
  intro k
  induction k with
  | zero => intro a j _; rfl
  | succ n ih =>
    intro a j hnil
    by_cases h : idx a (j + 1) < idx a j
    · exfalso
      have hstep : (bubbleInner a j (n + 1)).2.1 =
          ⟨StepType.swap, (j, j + 1), (idx a j, idx a (j + 1))⟩ ::
            (bubbleInner (listSwap a j (j + 1)) (j + 1) n).2.1 := by
        simp only [bubbleInner, if_pos h]
      rw [hstep] at hnil
      exact List.cons_ne_nil _ _ hnil
    · simp only [bubbleInner, if_neg h] at hnil ⊢
      exact ih _ _ hnil

theorem bubble_empty_iff (arr : List Int) :
    generateBubbleSortSteps arr = [] ↔ AdjOK arr := by
  rcases Nat.lt_or_ge arr.length 2 with hsmall | hbig
  · have h0 : arr.length - 1 = 0 := by omega
    rw [generateBubbleSortSteps, h0]
    simp only [bubbleOuter]
    constructor
    · intro _ t ht; omega
    · intro _; trivial
  · rw [generateBubbleSortSteps]
    obtain ⟨m, hm⟩ : ∃ m, arr.length - 1 = m + 1 := ⟨arr.length - 2, by omega⟩
    rw [hm]
    have hk : 0 + (arr.length - 0 - 1) < arr.length := by omega
    by_cases hf : (bubbleInner arr 0 (arr.length - 0 - 1)).2.2 = true
    · simp only [bubbleOuter, if_pos hf]
      constructor
      · intro hcon
        rw [List.append_eq_nil] at hcon
        have := (bi_false_iff (arr.length - 0 - 1) arr 0).mpr
        have hff : (bubbleInner arr 0 (arr.length - 0 - 1)).2.2 = false :=
          bi_nil_flag (arr.length - 0 - 1) arr 0 hcon.1
        rw [hf] at hff
        exact Bool.noConfusion hff
      · intro hadj
        exfalso
        have hff : (bubbleInner arr 0 (arr.length - 0 - 1)).2.2 = false :=
          (bi_false_iff (arr.length - 0 - 1) arr 0).mpr
            (by intro t ht1 ht2; exact hadj t (by omega))
        rw [hf] at hff
        exact Bool.noConfusion hff
    · have hf' : (bubbleInner arr 0 (arr.length - 0 - 1)).2.2 = false := by
        revert hf
        cases (bubbleInner arr 0 (arr.length - 0 - 1)).2.2 <;> simp
      simp only [bubbleOuter, if_neg hf]
      obtain ⟨_, hsteps⟩ := bi_false (arr.length - 0 - 1) arr 0 hf'
      rw [hsteps]
      have hrange := (bi_false_iff (arr.length - 0 - 1) arr 0).mp hf'
      constructor
      · intro _ t ht
        exact hrange t (Nat.zero_le t) (by omega)
      · intro _; trivial

theorem bo_bound : ∀ (m n : Nat) (a : List Int) (i : Nat),
    2 * (bubbleOuter n a i m).2.length ≤ (n - i) * (n - i - 1) := by
  intro m
  induction m with
  | zero => intro n a i; simp [bubbleOuter]
  | succ m ih =>
    intro n a i
    have hP := bi_steps_le (n - i - 1) a 0
    by_cases hf : (bubbleInner a 0 (n - i - 1)).2.2 = true
    · simp only [bubbleOuter, if_pos hf, List.length_append]
      have hR := ih n (bubbleInner a 0 (n - i - 1)).1 (i + 1)
      have he : n - (i + 1) = n - i - 1 := by omega
      rw [he] at hR
      rcases Nat.eq_zero_or_pos (n - i - 1) with hc | hc
      · rw [hc] at hP hR ⊢
        omega
      · obtain ⟨d, hd⟩ : ∃ d, n - i - 1 = d + 1 := ⟨n - i - 2, by omega⟩
        have hni : n - i = d + 2 := by omega
        rw [hd] at hP hR
        rw [hd, hni]
        have hd1 : d + 1 - 1 = d := by omega
        rw [hd1] at hR
        have key : (d + 2) * (d + 1) = 2 * (d + 1) + (d + 1) * d := by ring
        rw [key]
        linarith
    · simp only [bubbleOuter, if_neg hf]
      rcases Nat.eq_zero_or_pos (n - i - 1) with hc | hc
      · rw [hc] at hP ⊢
        omega
      · obtain ⟨d, hd⟩ : ∃ d, n - i - 1 = d + 1 := ⟨n - i - 2, by omega⟩
        have hni : n - i = d + 2 := by omega
        rw [hd] at hP
        rw [hd, hni]
        have key : (d + 2) * (d + 1) = 2 * (d + 1) + (d + 1) * d := by ring
        rw [key]
        have : (0:Nat) ≤ (d + 1) * d := Nat.zero_le _
        linarith

/-- Every generated plan is a coherent trace from its input. -/
theorem generateSteps_coherent (k : AlgKey) (a : List Int) :
    Coherent a (generateSteps k a) := by
  cases k with
  | bubble => exact (bubble_master a).1.1
  | selection => exact (selection_master a).1.1
  | insertion => exact (insertion_master a).1.1

/-- Replaying a generated plan on its input yields a non-decreasing list. -/
theorem generateSteps_sorted (k : AlgKey) (a : List Int) :
    isSortedList (applySteps (generateSteps k a) a) = true := by
  rw [isSortedList_iff]
  cases k with
  | bubble =>
    obtain ⟨⟨_, hr⟩, ha⟩ := bubble_master a
    rw [show generateSteps AlgKey.bubble a = generateBubbleSortSteps a from rfl, hr]
    exact ha
  | selection =>
    obtain ⟨⟨_, hr⟩, hp⟩ := selection_master a
    rw [show generateSteps AlgKey.selection a = generateSelectionSortSteps a from rfl, hr]
    exact pairOK_adjOK hp
  | insertion =>
    obtain ⟨⟨_, hr⟩, hp⟩ := insertion_master a
    rw [show generateSteps AlgKey.insertion a = generateInsertionSortSteps a from rfl, hr]
    exact pairOK_adjOK hp

theorem nodup_idx_ne {l : List Int} (h : l.Nodup) {i j : Nat} (hi : i < l.length)
    (hj : j < l.length) (hij : i ≠ j) : idx l i ≠ idx l j := by
  intro he
  have hgi : idx l i = l[i] := by
    simp [idx, List.getElem?_eq_getElem hi]
  have hgj : idx l j = l[j] := by
    simp [idx, List.getElem?_eq_getElem hj]
  rw [hgi, hgj] at he
  exact hij ((List.Nodup.getElem_inj_iff h).mp he)

/-- A duplicate-free draw of length at least 2 never leaves
`generateRandomNumbers` sorted: the final fixup breaks a sorted draw. -/
theorem generateRandomNumbers_not_sorted {shuffled : List Int}
    (hnd : shuffled.Nodup) (hlen : 2 ≤ shuffled.length) :
    isSortedList (generateRandomNumbers shuffled) = false := by
  by_cases hs : isSortedList shuffled = true
  · rw [generateRandomNumbers, if_pos hs]
    have hnadj : ¬ AdjOK (listSwap shuffled 0 1) := by
      intro hadj
      have h01 := hadj 0 (by rw [length_listSwap]; omega)
      rw [idx_listSwap_fst (by omega) (by omega), idx_listSwap_snd (by omega)] at h01
      have hle : idx shuffled 0 ≤ idx shuffled 1 :=
        (isSortedList_iff shuffled).mp hs 0 (by omega)
      exact nodup_idx_ne hnd (by omega) (by omega) (by omega) (le_antisymm hle h01)
    cases hb : isSortedList (listSwap shuffled 0 1) with
    | false => rfl
    | true => exact absurd ((isSortedList_iff _).mp hb) hnadj
  · rw [generateRandomNumbers, if_neg hs]
    cases hb : isSortedList shuffled with
    | false => rfl
    | true => exact absurd hb hs

theorem generateRandomNumbers_perm (shuffled : List Int) (h2 : 2 ≤ shuffled.length) :
    (generateRandomNumbers shuffled).Perm shuffled := by
  rw [generateRandomNumbers]
  by_cases hs : isSortedList shuffled = true
  · rw [if_pos hs]
    exact listSwap_perm shuffled 0 1 (by omega) (by omega)
  · rw [if_neg hs]

/-- A plan on a not-yet-sorted input is never empty, for any of the three
algorithms. -/
theorem plan_ne_of_not_sorted (k : AlgKey) (a : List Int)
    (h : isSortedList a = false) : generateSteps k a ≠ [] := by
  intro hnil
  have hadj : AdjOK a := by
    cases k with
    | bubble => exact (bubble_empty_iff a).mp hnil
    | insertion => exact (insertion_empty_iff a).mp hnil
    | selection =>
      have hmin := (selection_empty_iff a).mp hnil
      intro t ht
      exact hmin t ht (t + 1) (by omega) ht
  have htrue : isSortedList a = true := (isSortedList_iff a).mpr hadj
  rw [h] at htrue
  exact Bool.noConfusion htrue

theorem attemptSwap_not_playing {e : Engine} (h : e.state ≠ GameState.playing)
    (i1 i2 : Int) :
    attemptSwap e i1 i2 =
      (e, ⟨false, false, none, none, none, "Jocul nu este activ!", none, none, none⟩) := by
  rw [attemptSwap, if_pos h]

theorem attemptSwap_correct_spec {e : Engine} {s : Step} (hp : e.state = GameState.playing)
    (hs : e.stepQueue[e.currentStepIndex]? = some s) {i1 i2 : Int}
    (hv : validateMove (some s) i1 i2 = true) :
    (attemptSwap e i1 i2).1.numbers = swapIntIdx e.numbers i1 i2 ∧
    (attemptSwap e i1 i2).1.currentStepIndex = e.currentStepIndex + 1 ∧
    (attemptSwap e i1 i2).1.stepQueue = e.stepQueue ∧
    (attemptSwap e i1 i2).1.originalNumbers = e.originalNumbers ∧
    (attemptSwap e i1 i2).1.currentAlgorithm = e.currentAlgorithm ∧
    (attemptSwap e i1 i2).1.stats =
      ⟨e.stats.totalMoves + 1, e.stats.correctMoves + 1, e.stats.incorrectMoves⟩ ∧
    (attemptSwap e i1 i2).1.state =
      (if e.stepQueue.length ≤ e.currentStepIndex + 1 then GameState.completed
        else GameState.playing) := by
  have hne : ¬(e.state ≠ GameState.playing) := fun hh => hh hp
  simp [attemptSwap, hne, hs, hv, completeGame]
  by_cases hc : e.stepQueue.length ≤ e.currentStepIndex + 1 <;> simp [hc, hp]

theorem attemptSwap_incorrect_spec {e : Engine} {s : Step} (hp : e.state = GameState.playing)
    (hs : e.stepQueue[e.currentStepIndex]? = some s) {i1 i2 : Int}
    (hv : validateMove (some s) i1 i2 = false) :
    attemptSwap e i1 i2 =
      ({ e with stats :=
          ⟨e.stats.totalMoves + 1, e.stats.correctMoves, e.stats.incorrectMoves + 1⟩ },
        ⟨false, false, none, some (i1, i2), some s.indices,
          getErrorMessage e.currentAlgorithm (some s) i1 i2, none,
          some (getNextMoveHint e.currentAlgorithm (some s)), none⟩) := by
  have hne : ¬(e.state ≠ GameState.playing) := fun hh => hh hp
  simp [attemptSwap, hne, hs, hv, engineNextHint]

/-- `validateMove` accepts exactly the recorded pair, in either order. -/
theorem validateMove_true_cases {s : Step} {i1 i2 : Int}
    (hv : validateMove (some s) i1 i2 = true) :
    (i1 = (s.indices.1 : Int) ∧ i2 = (s.indices.2 : Int)) ∨
    (i1 = (s.indices.2 : Int) ∧ i2 = (s.indices.1 : Int)) := by
  rw [validateMove, decide_eq_true_eq] at hv
  exact hv

theorem swapIntIdx_of_validate {a : List Int} {s : Step} {i1 i2 : Int}
    (hv : validateMove (some s) i1 i2 = true) :
    swapIntIdx a i1 i2 = listSwap a s.indices.1 s.indices.2 := by
  rcases validateMove_true_cases hv with ⟨h1, h2⟩ | ⟨h1, h2⟩
  · rw [swapIntIdx, h1, h2, Int.toNat_ofNat, Int.toNat_ofNat]
  · rw [swapIntIdx, h1, h2, Int.toNat_ofNat, Int.toNat_ofNat]
    exact listSwap_comm a _ _

theorem applySteps_take_succ {ss : List Step} {c : Nat} {s : Step}
    (hs : ss[c]? = some s) (a : List Int) :
    applySteps (ss.take (c + 1)) a =
      listSwap (applySteps (ss.take c) a) s.indices.1 s.indices.2 := by
  rw [List.take_succ, hs, applySteps_append]
  rfl

theorem inv_selIdx {e : Engine} (h : Inv e) (x : Option Int) :
    Inv { e with selectedIndex := x } := by
  obtain ⟨h1, h2, h3, h4, h5, h6, h7, h8⟩ := h
  exact ⟨h1, h2, h3, h4, h5, h6, h7, h8⟩

theorem inv_attemptSwap {e : Engine} (h : Inv e) (i1 i2 : Int) :
    Inv (attemptSwap e i1 i2).1 := by
  by_cases hp : e.state = GameState.playing
  · have hlt := h.playingLt hp
    obtain ⟨s, hs⟩ : ∃ s, e.stepQueue[e.currentStepIndex]? = some s :=
      ⟨_, List.getElem?_eq_getElem hlt⟩
    by_cases hv : validateMove (some s) i1 i2 = true
    · obtain ⟨f1, f2, f3, f4, f5, f6, f7⟩ := attemptSwap_correct_spec hp hs hv
      refine ⟨?_, ?_, ?_, ?_, ?_, ?_, ?_, ?_⟩
      · rw [f7]
        by_cases hc : e.stepQueue.length ≤ e.currentStepIndex + 1
        · rw [if_pos hc]; exact Or.inr rfl
        · rw [if_neg hc]; exact Or.inl rfl
      · rw [f5]; exact h.algSome
      · intro k hk
        rw [f5] at hk
        rw [f3, f4]
        exact h.planEq k hk
      · rw [f1, f2, f3, f4]
        rw [applySteps_take_succ hs, ← h.replayEq]
        exact swapIntIdx_of_validate hv
      · rw [f2, f3]; omega
      · intro hplay
        rw [f7] at hplay
        rw [f2, f3]
        by_cases hc : e.stepQueue.length ≤ e.currentStepIndex + 1
        · rw [if_pos hc] at hplay
          exact absurd hplay (by intro hh; exact GameState.noConfusion hh)
        · omega
      · rw [f3]; exact h.planNe
      · rw [f6]
        have := h.statsEq
        simp only []
        omega
    · have hv' : validateMove (some s) i1 i2 = false := by
        revert hv
        cases validateMove (some s) i1 i2 <;> simp
      rw [attemptSwap_incorrect_spec hp hs hv']
      obtain ⟨h1, h2, h3, h4, h5, h6, h7, h8⟩ := h
      refine ⟨h1, h2, h3, h4, h5, h6, h7, ?_⟩
      simp only []
      omega
  · rw [attemptSwap_not_playing hp]
    exact h

theorem inv_selectElement {e : Engine} (h : Inv e) (i : Int) :
    Inv (selectElement e i).1 := by
  by_cases h1 : e.state ≠ GameState.playing
  · simp only [selectElement, if_pos h1]
    exact h
  · by_cases h2 : i < 0 ∨ (e.numbers.length : Int) ≤ i
    · simp only [selectElement, if_neg h1, if_pos h2]
      exact h
    · cases hsel : e.selectedIndex with
      | none =>
        simp only [selectElement, if_neg h1, if_neg h2, hsel]
        exact inv_selIdx h _
      | some sel =>
        by_cases h3 : sel = i
        · simp only [selectElement, if_neg h1, if_neg h2, hsel, if_pos h3]
          exact inv_selIdx h _
        · simp only [selectElement, if_neg h1, if_neg h2, hsel, if_neg h3]
          exact inv_attemptSwap (inv_selIdx h none) sel i

theorem inv_initSession (alg : AlgKey) (nums : List Int)
    (hne : generateSteps alg nums ≠ []) : Inv (initSession alg nums).1 := by
  refine ⟨Or.inl rfl, ⟨alg, rfl⟩, ?_, rfl, Nat.zero_le _, ?_, hne, rfl⟩
  · intro k hk
    have : alg = k := by
      injection hk
    rw [← this]
    rfl
  · intro _
    exact List.length_pos.mpr hne

theorem inv_start (e₀ : Engine) (key : Option String) (randAlg : AlgKey)
    (shuffled : List Int) (h : RandOK shuffled) :
    Inv (startNewGame e₀ key randAlg shuffled).1 := by
  have hns : isSortedList (generateRandomNumbers shuffled) = false :=
    generateRandomNumbers_not_sorted h.1 (by
      have := h.2.1
      omega)
  exact inv_initSession _ _ (plan_ne_of_not_sorted _ _ hns)

/-- Every reachable session state satisfies the invariant. -/
theorem reachable_inv {e : Engine} (h : Reachable e) : Inv e := by
  induction h with
  | start e₀ key randAlg shuffled hok => exact inv_start e₀ key randAlg shuffled hok
  | select e i _ ih => exact inv_selectElement ih i

/-- C1: for every supported algorithm identifier (bubble, selection,
insertion) and every input sequence of length at least 2 (duplicates
allowed), applying the swap steps of the plan returned by
`generateStepsForAlgorithm`, in order, to the original input sequence
yields a non-decreasing sequence. -/
theorem c1_plan_sorts_input (key : String) (arr : List Int) (plan : List Step)
    (hok : generateStepsForAlgorithm key arr = Except.ok plan)
    (_hlen : 2 ≤ arr.length) :
    isSortedList (applySteps plan arr) = true := by
  rw [generateStepsForAlgorithm] at hok
  cases hl : lookupAlgorithm key with
  | none =>
    rw [hl] at hok
    exact Except.noConfusion hok
  | some k =>
    rw [hl] at hok
    have hp : generateSteps k arr = plan := by injection hok
    rw [← hp]
    exact generateSteps_sorted k arr

theorem c1_plan_sorts_input_witness :
    generateStepsForAlgorithm "bubble" [5, 3, 4] =
      Except.ok [⟨StepType.swap, (0, 1), (5, 3)⟩, ⟨StepType.swap, (1, 2), (5, 4)⟩] ∧
    isSortedList (applySteps
      [⟨StepType.swap, (0, 1), (5, 3)⟩, ⟨StepType.swap, (1, 2), (5, 4)⟩]
      [5, 3, 4]) = true :=
  ⟨rfl, c1_plan_sorts_input "bubble" [5, 3, 4]
    [⟨StepType.swap, (0, 1), (5, 3)⟩, ⟨StepType.swap, (1, 2), (5, 4)⟩]
    rfl (by decide)⟩

/-- C2 counterexample: `startNewGame` with the unrecognized identifier
`"quicksort"` does not raise — `ALGORITHMS["quicksort"]` is undefined, so
the code silently falls back to the randomly selected algorithm — and the
prior session state is discarded (here: the demo session), not left
untouched. -/
theorem c2_startNewGame_counterexample :
    lookupAlgorithm "quicksort" = none ∧
    (startNewGame demoBubbleEngine (some "quicksort") AlgKey.selection
      [2, 1, 3, 4, 5]).1.state = GameState.playing ∧
    (startNewGame demoBubbleEngine (some "quicksort") AlgKey.selection
      [2, 1, 3, 4, 5]).1.currentAlgorithm = some AlgKey.selection ∧
    (startNewGame demoBubbleEngine (some "quicksort") AlgKey.selection
      [2, 1, 3, 4, 5]).1 ≠ demoBubbleEngine := by
  decide

/-- C2 (amended): `changeAlgorithm` with an unrecognized identifier raises
the unrecognized-algorithm error and leaves all prior session state
unchanged, while `startNewGame` with an unrecognized identifier does not
raise: it behaves exactly as a start with no identifier, falling back to
the randomly selected algorithm. -/
theorem c2_unknown_algorithm_amended (e : Engine) (key : String) (randAlg : AlgKey)
    (shuffled : List Int) (h : lookupAlgorithm key = none) :
    changeAlgorithm e key randAlg shuffled =
      (e, Except.error ("Algoritm necunoscut: " ++ key)) ∧
    startNewGame e (some key) randAlg shuffled =
      startNewGame e none randAlg shuffled := by
  constructor
  · rw [changeAlgorithm, h]
  · rw [startNewGame, startNewGame, h]
    rfl

theorem c2_unknown_algorithm_amended_witness :
    changeAlgorithm demoBubbleEngine "quicksort" AlgKey.bubble [2, 1, 3, 4, 5] =
      (demoBubbleEngine, Except.error ("Algoritm necunoscut: " ++ "quicksort")) ∧
    startNewGame demoBubbleEngine (some "quicksort") AlgKey.bubble [2, 1, 3, 4, 5] =
      startNewGame demoBubbleEngine none AlgKey.bubble [2, 1, 3, 4, 5] :=
  c2_unknown_algorithm_amended demoBubbleEngine "quicksort" AlgKey.bubble
    [2, 1, 3, 4, 5] rfl

/-- C3: in every session state reachable from `startNewGame` by any
sequence of `selectElement` calls, `totalMoves = correctMoves +
incorrectMoves`. -/
theorem c3_total_moves_sum (e : Engine) (h : Reachable e) :
    e.stats.totalMoves = e.stats.correctMoves + e.stats.incorrectMoves :=
  (reachable_inv h).statsEq

theorem c3_total_moves_sum_witness :
    ((selectElement ((selectElement (startNewGame resetEngine none AlgKey.bubble
        [2, 1, 3, 4, 5]).1 0).1) 1).1).stats.totalMoves =
      ((selectElement ((selectElement (startNewGame resetEngine none AlgKey.bubble
        [2, 1, 3, 4, 5]).1 0).1) 1).1).stats.correctMoves +
      ((selectElement ((selectElement (startNewGame resetEngine none AlgKey.bubble
        [2, 1, 3, 4, 5]).1 0).1) 1).1).stats.incorrectMoves :=
  c3_total_moves_sum _ (Reachable.select _ 1 (Reachable.select _ 0
    (Reachable.start resetEngine none AlgKey.bubble [2, 1, 3, 4, 5] ⟨by decide, by decide, by decide, by decide⟩)))

/-- C4: concrete bubble scenario on `[5, 3, 4]`: the plan is exactly
swap(0,1) values (5,3) then swap(1,2) values (5,4); attempting (0,1)
succeeds giving [3,5,4] and cursor 1; attempting (0,2) is rejected with
expected indices (1,2) and neither sequence nor cursor changes; attempting
(1,2) then succeeds giving [3,4,5], cursor 2 = plan length, and the state
becomes completed. -/
theorem c4_bubble_scenario :
    demoBubbleEngine.stepQueue =
      [⟨StepType.swap, (0, 1), (5, 3)⟩, ⟨StepType.swap, (1, 2), (5, 4)⟩] ∧
    demoBubbleEngine.numbers = [5, 3, 4] ∧
    (attemptSwap demoBubbleEngine 0 1).2.success = true ∧
    (attemptSwap demoBubbleEngine 0 1).2.correct = true ∧
    (attemptSwap demoBubbleEngine 0 1).1.numbers = [3, 5, 4] ∧
    (attemptSwap demoBubbleEngine 0 1).1.currentStepIndex = 1 ∧
    (attemptSwap (attemptSwap demoBubbleEngine 0 1).1 0 2).2.success = false ∧
    (attemptSwap (attemptSwap demoBubbleEngine 0 1).1 0 2).2.correct = false ∧
    (attemptSwap (attemptSwap demoBubbleEngine 0 1).1 0 2).2.expectedIndices =
      some (1, 2) ∧
    (attemptSwap (attemptSwap demoBubbleEngine 0 1).1 0 2).1.numbers = [3, 5, 4] ∧
    (attemptSwap (attemptSwap demoBubbleEngine 0 1).1 0 2).1.currentStepIndex = 1 ∧
    (attemptSwap (attemptSwap (attemptSwap demoBubbleEngine 0 1).1 0 2).1 1 2).2.success
      = true ∧
    (attemptSwap (attemptSwap (attemptSwap demoBubbleEngine 0 1).1 0 2).1 1 2).1.numbers
      = [3, 4, 5] ∧
    (attemptSwap (attemptSwap (attemptSwap demoBubbleEngine 0 1).1 0 2).1 1 2).1.currentStepIndex
      = 2 ∧
    demoBubbleEngine.stepQueue.length = 2 ∧
    (attemptSwap (attemptSwap (attemptSwap demoBubbleEngine 0 1).1 0 2).1 1 2).1.state
      = GameState.completed := by
  decide

/-- C5: the bubble and insertion plans are empty exactly when the input is
already non-decreasing; the selection plan is empty exactly when, at every
boundary, the minimum of the corresponding suffix already sits at the
boundary — a condition equivalent to the input being sorted (in
particular for the distinct values the session generates). -/
theorem c5_plan_empty_iff (arr : List Int) :
    (generateBubbleSortSteps arr = [] ↔ isSortedList arr = true) ∧
    (generateInsertionSortSteps arr = [] ↔ isSortedList arr = true) ∧
    (generateSelectionSortSteps arr = [] ↔
      (∀ i, i + 1 < arr.length → ∀ j, i < j → j < arr.length →
        idx arr i ≤ idx arr j)) ∧
    (arr.Nodup →
      ((∀ i, i + 1 < arr.length → ∀ j, i < j → j < arr.length →
          idx arr i ≤ idx arr j) ↔ isSortedList arr = true)) := by
  refine ⟨?_, ?_, selection_empty_iff arr, ?_⟩
  · rw [bubble_empty_iff, isSortedList_iff]
  · rw [insertion_empty_iff, isSortedList_iff]
  · intro _
    rw [isSortedList_iff]
    constructor
    · intro hmin t ht
      exact hmin t ht (t + 1) (by omega) ht
    · intro hadj i hi j hj1 hj2
      exact adjOK_pairOK hadj i j hj1 hj2

theorem c5_plan_empty_iff_witness :
    (generateBubbleSortSteps [2, 1] = [] ↔ isSortedList [2, 1] = true) ∧
    (generateInsertionSortSteps [1, 2] = [] ↔ isSortedList [1, 2] = true) :=
  ⟨(c5_plan_empty_iff [2, 1]).1, (c5_plan_empty_iff [1, 2]).2.1⟩

/-- C6: for an input of length n, the plan has at most n(n-1)/2 steps for
the bubble variant, at most n-1 for the selection variant, and at most
n(n-1)/2 for the insertion variant. -/
theorem c6_plan_length_bounds (arr : List Int) :
    (generateBubbleSortSteps arr).length ≤ arr.length * (arr.length - 1) / 2 ∧
    (generateSelectionSortSteps arr).length ≤ arr.length - 1 ∧
    (generateInsertionSortSteps arr).length ≤ arr.length * (arr.length - 1) / 2 := by
  refine ⟨?_, ?_, ?_⟩
  · rw [Nat.le_div_iff_mul_le (by omega : 0 < 2), generateBubbleSortSteps]
    have hb := bo_bound (arr.length - 1) arr.length arr 0
    have h0 : arr.length - 0 = arr.length := by omega
    rw [h0] at hb
    linarith
  · rw [generateSelectionSortSteps]
    exact so_bound (arr.length - 1) arr.length arr 0
  · rcases Nat.eq_zero_or_pos arr.length with h0 | hpos
    · obtain rfl : arr = [] := List.length_eq_zero.mp h0
      simp [generateInsertionSortSteps, insOuter]
    · rw [Nat.le_div_iff_mul_le (by omega : 0 < 2), generateInsertionSortSteps]
      have hb := io_bound (arr.length - 1) arr 1
      have he : 2 * 1 + (arr.length - 1) - 1 = arr.length := by omega
      rw [he, Nat.mul_comm] at hb
      linarith

/-- C7: a swap-attempt in the playing state that the step at the cursor
rejects increments `incorrectMoves` only, leaves the live sequence, cursor
and state unchanged, and returns a failure carrying the attempted indices,
the expected step's indices, the algorithm-specific error message and the
hint for the next required move. -/
theorem c7_incorrect_attempt_frame {e : Engine} {s : Step} {i1 i2 : Int}
    (hp : e.state = GameState.playing)
    (hs : e.stepQueue[e.currentStepIndex]? = some s)
    (hv : validateMove (some s) i1 i2 = false) :
    (attemptSwap e i1 i2).1.stats.incorrectMoves = e.stats.incorrectMoves + 1 ∧
    (attemptSwap e i1 i2).1.stats.totalMoves = e.stats.totalMoves + 1 ∧
    (attemptSwap e i1 i2).1.stats.correctMoves = e.stats.correctMoves ∧
    (attemptSwap e i1 i2).1.numbers = e.numbers ∧
    (attemptSwap e i1 i2).1.currentStepIndex = e.currentStepIndex ∧
    (attemptSwap e i1 i2).1.state = e.state ∧
    (attemptSwap e i1 i2).2.success = false ∧
    (attemptSwap e i1 i2).2.correct = false ∧
    (attemptSwap e i1 i2).2.indices = some (i1, i2) ∧
    (attemptSwap e i1 i2).2.expectedIndices = some s.indices ∧
    (attemptSwap e i1 i2).2.message =
      getErrorMessage e.currentAlgorithm (some s) i1 i2 ∧
    (attemptSwap e i1 i2).2.hint =
      some (getNextMoveHint e.currentAlgorithm (some s)) := by
  rw [attemptSwap_incorrect_spec hp hs hv]
  exact ⟨rfl, rfl, rfl, rfl, rfl, rfl, rfl, rfl, rfl, rfl, rfl, rfl⟩

theorem c7_incorrect_attempt_frame_witness :
    (attemptSwap demoBubbleEngine 0 2).1.stats.incorrectMoves =
      demoBubbleEngine.stats.incorrectMoves + 1 :=
  (@c7_incorrect_attempt_frame demoBubbleEngine ⟨StepType.swap, (0, 1), (5, 3)⟩
    0 2 rfl rfl (by decide)).1

/-- C8: `validateMove` is symmetric in the two proposed indices, holds
exactly when the proposed unordered pair equals the step's recorded
position pair, and is always false on an absent step. -/
theorem c8_validateMove_spec (s : Step) (a b : Int) :
    validateMove (some s) a b = validateMove (some s) b a ∧
    validateMove none a b = validateMove none b a ∧
    (validateMove (some s) a b = true ↔
      ({a, b} : Set Int) = {(s.indices.1 : Int), (s.indices.2 : Int)}) ∧
    validateMove none a b = false := by
  refine ⟨?_, rfl, ?_, rfl⟩
  · show decide _ = decide _
    rw [decide_eq_decide]
    tauto
  · show decide _ = true ↔ _
    rw [decide_eq_true_eq, Set.pair_eq_pair_iff]

/-- C9: in every reachable session state, the live sequence equals the
replay of the first `cursor` plan steps on the original snapshot, and the
step at the cursor records exactly the values currently at its positions. -/
theorem c9_sequence_replay (e : Engine) (h : Reachable e) :
    e.numbers = applySteps (e.stepQueue.take e.currentStepIndex) e.originalNumbers ∧
    ∀ s, e.stepQueue[e.currentStepIndex]? = some s →
      s.values.1 = idx e.numbers s.indices.1 ∧
      s.values.2 = idx e.numbers s.indices.2 := by
  have hi := reachable_inv h
  refine ⟨hi.replayEq, ?_⟩
  intro s hs
  obtain ⟨k, hk⟩ := hi.algSome
  have hco : Coherent e.originalNumbers e.stepQueue := by
    rw [hi.planEq k hk]
    exact generateSteps_coherent k e.originalNumbers
  have hv := coherent_values_at e.stepQueue e.originalNumbers e.currentStepIndex s hco hs
  rw [← hi.replayEq] at hv
  exact hv

theorem c9_sequence_replay_witness :
    (startNewGame resetEngine (some "bubble") AlgKey.bubble [2, 1, 3, 4, 5]).1.numbers =
      applySteps
        ((startNewGame resetEngine (some "bubble") AlgKey.bubble
          [2, 1, 3, 4, 5]).1.stepQueue.take
          (startNewGame resetEngine (some "bubble") AlgKey.bubble
            [2, 1, 3, 4, 5]).1.currentStepIndex)
        (startNewGame resetEngine (some "bubble") AlgKey.bubble
          [2, 1, 3, 4, 5]).1.originalNumbers ∧
    (⟨StepType.swap, (0, 1), (2, 1)⟩ : Step).values.1 =
      idx (startNewGame resetEngine (some "bubble") AlgKey.bubble
        [2, 1, 3, 4, 5]).1.numbers 0 := by
  have hr : Reachable (startNewGame resetEngine (some "bubble") AlgKey.bubble
      [2, 1, 3, 4, 5]).1 :=
    Reachable.start resetEngine (some "bubble") AlgKey.bubble [2, 1, 3, 4, 5] ⟨by decide, by decide, by decide, by decide⟩
  refine ⟨(c9_sequence_replay _ hr).1, ?_⟩
  exact ((c9_sequence_replay _ hr).2 ⟨StepType.swap, (0, 1), (2, 1)⟩ (by decide)).1

/-- C10: the random-sequence generator always yields at least 5 distinct
values arranged to be not yet sorted, so every started game has a
non-empty plan for each of the three algorithms, and in every reachable
playing state the cursor still points at an existing step — the
exhausted-plan branch of a swap-attempt is unreachable through
`selectElement`. -/
theorem c10_plan_never_empty :
    (∀ shuffled : List Int, RandOK shuffled →
      5 ≤ (generateRandomNumbers shuffled).length ∧
      (generateRandomNumbers shuffled).Nodup ∧
      isSortedList (generateRandomNumbers shuffled) = false ∧
      ∀ k : AlgKey, generateSteps k (generateRandomNumbers shuffled) ≠ []) ∧
    (∀ e : Engine, Reachable e → e.state = GameState.playing →
      e.currentStepIndex < e.stepQueue.length) := by
  constructor
  · intro shuffled hok
    obtain ⟨hnd, h5, _, _⟩ := hok
    have hperm := generateRandomNumbers_perm shuffled (by omega)
    have hns : isSortedList (generateRandomNumbers shuffled) = false :=
      generateRandomNumbers_not_sorted hnd (by omega)
    refine ⟨?_, ?_, hns, fun k => plan_ne_of_not_sorted k _ hns⟩
    · rw [hperm.length_eq]
      exact h5
    · exact hperm.symm.nodup hnd
  · intro e h hp
    exact (reachable_inv h).playingLt hp

theorem c10_plan_never_empty_witness :
    generateSteps AlgKey.bubble (generateRandomNumbers [2, 1, 3, 4, 5]) ≠ [] ∧
    ((startNewGame resetEngine none AlgKey.insertion [2, 1, 3, 4, 5]).1.state =
        GameState.playing →
      (startNewGame resetEngine none AlgKey.insertion
          [2, 1, 3, 4, 5]).1.currentStepIndex <
        (startNewGame resetEngine none AlgKey.insertion
          [2, 1, 3, 4, 5]).1.stepQueue.length) :=
  ⟨(c10_plan_never_empty.1 [2, 1, 3, 4, 5] ⟨by decide, by decide, by decide, by decide⟩).2.2.2 AlgKey.bubble,
    c10_plan_never_empty.2 _
      (Reachable.start resetEngine none AlgKey.insertion [2, 1, 3, 4, 5] ⟨by decide, by decide, by decide, by decide⟩)⟩

end SortGame
